import Mathlib

/-!
# Verification of the teleparser statistics engine

A shallow embedding of `src/main.rs` (the Telegram chat word-frequency
statistics gatherer) together with proofs about its pipeline:
tokenization, emoji stripping, per-chunk aggregation, merging and the
assembly of the final `ChatStatistics` report.

Modelling conventions:
* Rust `&str` / `String` text that the pipeline processes character by
  character is modelled as `List Char` (abbreviated `Str`), so that the
  splitting loop of line 149 of the source is a structural recursion.
* Rust `HashMap` is modelled as an association list with the exact
  insert/lookup semantics the source relies on (`insert` replaces an
  existing key in place, otherwise appends); maps built by the program
  never carry duplicate keys, which is proved, not assumed.
* Rust panics (`unwrap` on `None`, integer division by zero) are
  modelled with `Except PanicKind`: the source's `message.from.clone().unwrap()`
  on a `None` author becomes `.error .unwrapNone`, and the
  `num_messages / jobs` expression with `jobs = 0`, which panics in
  Rust, becomes `.error .divByZero`.
* The thread fan-out of `ChatStatistics::gather` is modelled by mapping
  `processChunk` over the chunk list and folding the results into the
  accumulator maps in index order; commutativity of the merge (proved
  below) is what makes this a faithful model of the nondeterministic
  channel-arrival order of the source.
-/

set_option maxHeartbeats 1000000

/-- Rust string slices, processed character by character. -/
abbrev Str := List Char

/-- Mirrors `enum ChatType` of the source. -/
inductive ChatType
  | publicChannel
  | privateChannel
  | publicSupergroup
  | privateSupergroup
  | personalChat
  | chatForbidden
deriving DecidableEq, Repr

/-- Mirrors `enum MessageType { Service, Message }` of the source. -/
inductive MessageType
  | service
  | message
deriving DecidableEq, Repr

/-- Mirrors `enum TextEntityType` of the source. -/
inductive TextEntityType
  | pre
  | bold
  | link
  | code
  | email
  | plain
  | phone
  | italic
  | cashtag
  | spoiler
  | mention
  | hashtag
  | textLink
  | underline
  | botCommand
  | customEmoji
  | mentionName
  | strikethrough
deriving DecidableEq, Repr

/-- Mirrors `struct TextEntity { _type, text }` of the source. -/
structure TextEntity where
  type : TextEntityType
  text : Str
deriving DecidableEq, Repr

/-- Mirrors `struct Message` of the source.  The `date` field (a
`chrono::NaiveDateTime` that the pipeline never reads) is elided; the
`Person` newtype around the author string is elided. -/
structure Message where
  id : Nat
  type : MessageType
  «from» : Option Str
  text_entities : List TextEntity
deriving DecidableEq, Repr

/-- Mirrors `struct Chat` of the source. -/
structure Chat where
  name : String
  type : ChatType
  id : Nat
  messages : List Message
deriving DecidableEq, Repr

/-- The two panics `ChatStatistics::gather` can hit: `Option::unwrap`
on `None` (line 147) and `usize` division by zero (line 131). -/
inductive PanicKind
  | divByZero
  | unwrapNone
deriving DecidableEq, Repr

/-- `HashMap<Token, usize>` of the source, as an association list. -/
abbrev FreqMap := List (Str × Nat)

/-- `HashMap<Person, HashMap<Token, usize>>` of the source. -/
abbrev MembersMap := List (Str × FreqMap)

/-- Mirrors `struct ChatStatistics` of the source. -/
structure ChatStatistics where
  num_tokens : Nat
  members_tokens_map : MembersMap
  tokens_map : FreqMap
deriving DecidableEq, Repr

/-- First-match association-list lookup: `HashMap::get`. -/
def lookupA {α : Type} (k : Str) : List (Str × α) → Option α
  | [] => none
  | (k', v) :: rest => if k' = k then some v else lookupA k rest

/-- `HashMap::insert`: replace the entry for `k` if present (keeping
its position), otherwise append a fresh entry. -/
def insertA {α : Type} (k : Str) (v : α) : List (Str × α) → List (Str × α)
  | [] => [(k, v)]
  | (k', v') :: rest => if k' = k then (k, v) :: rest else (k', v') :: insertA k v rest

/-- Mirrors `fn update_occurences` (lines 204-208): bump the count of
`token` by one, treating an absent key as count `0`. -/
def update_occurences (token : Str) (map : FreqMap) : FreqMap :=
  insertA token ((lookupA token map).getD 0 + 1) map

/-- The separator characters of line 149 of the source:
`[' ', ',', '.', '(', ')', '\'', '\"', '\n', '\t']`. -/
def separators : List Char := [' ', ',', '.', '(', ')', '\'', '\"', '\n', '\t']

/-- Helper for `splitChars`: returns the fragment currently being read
(built right to left) and the list of completed fragments after it. -/
def splitCharsNE (p : Char → Bool) : Str → Str × List Str
  | [] => ([], [])
  | c :: rest =>
      let r := splitCharsNE p rest
      if p c then ([], r.1 :: r.2) else (c :: r.1, r.2)

/-- Rust `str::split` on a character set: split at every character
satisfying `p`, keeping empty fragments (so `n` separators produce
`n + 1` fragments). -/
def splitChars (p : Char → Bool) (s : Str) : List Str :=
  (splitCharsNE p s).1 :: (splitCharsNE p s).2

/-- The token stream of line 149:
`entity.text.split([' ', ',', '.', '(', ')', '\'', '\"', '\n', '\t']).filter(|s| !s.is_empty())`. -/
def tokenize (s : Str) : List Str :=
  (splitChars (fun c => c ∈ separators) s).filter (fun f => f ≠ [])

/-- Modelled from the `emojis` crate: the finite emoji lookup table,
restricted to the emoji appearing in the inputs considered here.
`emojis::get` returns `Some` exactly on strings that are a complete
emoji. -/
def emoji_table : List Str := [['😀'], ['😃'], ['😄'], ['🎉'], ['🌍']]

/-- Modelled from the `unicode-segmentation` crate: grapheme-cluster
decomposition.  For text without combining sequences (all inputs
considered here) every scalar value is its own cluster. -/
def graphemes (s : Str) : List Str :=
  s.map (fun c => [c])

/-- Mirrors `fn remove_emojis` (lines 195-202): drop every grapheme
cluster that is an emoji, keep the rest in order. -/
def remove_emojis (s : Str) : Str :=
  ((graphemes s).filter (fun g => !(g ∈ emoji_table : Bool))).flatten

/-- The tokens one text entity contributes, in order: the fragments of
line 149 passed through `remove_emojis` (line 150).  Note the source
applies no filter on `entity._type`, and does not re-check emptiness
after `remove_emojis`. -/
def entityTokens (e : TextEntity) : List Str :=
  (tokenize e.text).map remove_emojis

/-- Lines 150-158 for a single token: bump it in the chunk-global map
and in the author's sub-map (`HashMap::from([(token, 1)])` on the
author's first token). -/
def countToken (a : Str) (token : Str) (st : FreqMap × MembersMap) :
    FreqMap × MembersMap :=
  let chunk_tokens_map := update_occurences token st.1
  let chunk_members_tokens_map :=
    match lookupA a st.2 with
    | some map => insertA a (update_occurences token map) st.2
    | none => insertA a [(token, 1)] st.2
  (chunk_tokens_map, chunk_members_tokens_map)

/-- The two inner loops of lines 148-160: every entity of the message,
every token of the entity. -/
def processEntities (a : Str) (entities : List TextEntity)
    (st : FreqMap × MembersMap) : FreqMap × MembersMap :=
  entities.foldl (fun st e => (entityTokens e).foldl (fun st t => countToken a t st) st) st

/-- One iteration of the message loop of lines 146-161: `Service`
messages are filtered out; a remaining message without an author hits
`message.from.clone().unwrap()` and panics. -/
def processMessage (st : FreqMap × MembersMap) (m : Message) :
    Except PanicKind (FreqMap × MembersMap) :=
  if m.type = MessageType.service then Except.ok st
  else
    match m.«from» with
    | none => Except.error PanicKind.unwrapNone
    | some a => Except.ok (processEntities a m.text_entities st)

/-- The body of one worker thread (lines 142-164): fold the chunk's
messages into freshly created maps. -/
def processChunk (msgs : List Message) : Except PanicKind (FreqMap × MembersMap) :=
  msgs.foldlM processMessage ([], [])

/-- Lines 168-171: fold a received chunk-global map into the
accumulator, summing counts. -/
def mergeTokens (acc delta : FreqMap) : FreqMap :=
  delta.foldl (fun acc kv => insertA kv.1 ((lookupA kv.1 acc).getD 0 + kv.2) acc) acc

/-- Lines 177-182: fold one author's received sub-map into that
author's accumulated sub-map. -/
def mergeMemberMap (outer delta : FreqMap) : FreqMap :=
  delta.foldl (fun outer kv => insertA kv.1 (kv.2 + (lookupA kv.1 outer).getD 0) outer) outer

/-- Lines 172-184: fold a received per-author map into the accumulator;
an unseen author's sub-map is inserted wholesale. -/
def mergeMembers (acc delta : MembersMap) : MembersMap :=
  delta.foldl
    (fun acc kv =>
      match lookupA kv.1 acc with
      | none => insertA kv.1 kv.2 acc
      | some outer => insertA kv.1 (mergeMemberMap outer kv.2) acc)
    acc

/-- Lines 166-185: merge one worker's pair of maps into the
accumulator pair. -/
def mergeStep (acc r : FreqMap × MembersMap) : FreqMap × MembersMap :=
  (mergeTokens acc.1 r.1, mergeMembers acc.2 r.2)

/-- The chunk handed to worker `i` (line 146):
`iter.skip(i * messages_per_thread).take(messages_per_thread)`. -/
def workerChunk (msgs : List Message) (i mpt : Nat) : List Message :=
  (msgs.drop (i * mpt)).take mpt

/-- The chunk list of one `gather` run, worker `0` through `jobs - 1`. -/
def gatherChunks (msgs : List Message) (jobs : Nat) : List (List Message) :=
  (List.range jobs).map (fun i => workerChunk msgs i (msgs.length / jobs))

/-- Mirrors `ChatStatistics::gather` (lines 129-192).  `jobs = 0` makes
`num_messages / jobs` (line 131) panic in Rust, modelled as
`.error .divByZero`.  Worker results are folded in index order; merge
commutativity (proved below) makes this equivalent to the source's
channel-arrival order. -/
def gather (chat : Chat) (jobs : Nat) : Except PanicKind ChatStatistics :=
  if jobs = 0 then Except.error PanicKind.divByZero
  else
    match (gatherChunks chat.messages jobs).mapM processChunk with
    | Except.error e => Except.error e
    | Except.ok results =>
        let folded := results.foldl mergeStep ([], [])
        Except.ok ⟨folded.1.length, folded.2, folded.1⟩

/-! ## Specification-side counting functions

These are proof-side observables, not part of the embedding: the number
of occurrences each token would be counted, read off directly from the
message list. -/

/-- The tokens a message contributes, in processing order: nothing for
a `Service` message, otherwise every entity's `entityTokens`. -/
def msgTokens (m : Message) : List Str :=
  if m.type = MessageType.service then [] else (m.text_entities.map entityTokens).flatten

/-- The tokens a message contributes to author `b`'s sub-map. -/
def msgTokensBy (b : Str) (m : Message) : List Str :=
  if m.«from» = some b then msgTokens m else []

/-- Total occurrences of token `t` across a message list. -/
def countTok (t : Str) (msgs : List Message) : Nat :=
  ((msgs.map msgTokens).flatten).count t

/-- Occurrences of token `t` attributed to author `b`. -/
def countBy (b t : Str) (msgs : List Message) : Nat :=
  ((msgs.map (msgTokensBy b)).flatten).count t

/-- Total number of token occurrences attributed to author `b`. -/
def totBy (b : Str) (msgs : List Message) : Nat :=
  ((msgs.map (msgTokensBy b)).flatten).length

/-- Adding `n` occurrences to an optional stored count: absent keys
stay absent when `n = 0`, otherwise the key becomes present with the
accumulated total. -/
def addOpt (o : Option Nat) (n : Nat) : Option Nat :=
  if n = 0 then o else some (o.getD 0 + n)

/-- The stored count for a key counted `n` times starting from an
empty map: absent iff `n = 0`. -/
def posOpt (n : Nat) : Option Nat :=
  if n = 0 then none else some n

/-- The author sub-map of `b`, the empty map when `b` is absent. -/
def subMap (b : Str) (mm : MembersMap) : FreqMap :=
  (lookupA b mm).getD []

/-- A message list the worker loop can process without panicking:
every non-`Service` message carries an author. -/
def processable (msgs : List Message) : Prop :=
  ∀ m ∈ msgs, m.type ≠ MessageType.service → (m.«from»).isSome

instance (msgs : List Message) : Decidable (processable msgs) := by
  unfold processable
  infer_instance

/-- Well-formed frequency map: no duplicate keys, every count ≥ 1. -/
def fmWF (m : FreqMap) : Prop :=
  (m.map Prod.fst).Nodup ∧ ∀ kv ∈ m, 1 ≤ kv.2

/-- Well-formed members map: no duplicate author keys, every sub-map
well formed and non-empty. -/
def mmWF (m : MembersMap) : Prop :=
  (m.map Prod.fst).Nodup ∧ ∀ av ∈ m, fmWF av.2 ∧ av.2 ≠ []

/-- Well-formed worker/accumulator state. -/
def pairWF (st : FreqMap × MembersMap) : Prop :=
  fmWF st.1 ∧ mmWF st.2

/-! ## Association-list lemmas -/

theorem lookupA_insertA {α : Type} (k k' : Str) (v : α) (m : List (Str × α)) :
    lookupA k (insertA k' v m) = if k' = k then some v else lookupA k m := by
  induction m with
  | nil => simp [insertA, lookupA]
  | cons kv rest ih =>
      obtain ⟨k0, v0⟩ := kv
      by_cases h : k0 = k'
      · subst h
        by_cases hk : k0 = k <;> simp [insertA, lookupA, hk]
      · by_cases hk : k0 = k
        · subst hk
          simp only [insertA, if_neg h, lookupA, if_pos rfl]
          have : ¬ k' = k0 := fun hc => h hc.symm
          simp [this]
        · simp [insertA, lookupA, h, hk, ih]

theorem lookupA_mem {α : Type} {k : Str} {v : α} {m : List (Str × α)}
    (h : lookupA k m = some v) : (k, v) ∈ m := by
  induction m with
  | nil => simp [lookupA] at h
  | cons kv rest ih =>
      obtain ⟨k0, v0⟩ := kv
      simp only [lookupA] at h
      split at h
      next heq =>
        injection h with h
        subst heq
        subst h
        exact List.mem_cons_self _ _
      next hne =>
        exact List.mem_cons_of_mem _ (ih h)

theorem lookupA_ne_none_iff {α : Type} (k : Str) (m : List (Str × α)) :
    lookupA k m ≠ none ↔ k ∈ m.map Prod.fst := by
  induction m with
  | nil => simp [lookupA]
  | cons kv rest ih =>
      obtain ⟨k0, v0⟩ := kv
      simp only [lookupA, List.map_cons, List.mem_cons]
      split
      next heq =>
        subst heq
        exact ⟨fun _ => Or.inl rfl, fun _ => Option.some_ne_none _⟩
      next hne =>
        rw [ih]
        constructor
        · exact fun h => Or.inr h
        · rintro (h | h)
          · exact absurd h.symm hne
          · exact h

theorem lookupA_eq_none_of_not_mem {α : Type} {k : Str} {m : List (Str × α)}
    (h : k ∉ m.map Prod.fst) : lookupA k m = none := by
  by_contra hc
  exact h ((lookupA_ne_none_iff k m).1 hc)

theorem lookupA_eq_of_mem {α : Type} {m : List (Str × α)}
    (hnd : (m.map Prod.fst).Nodup) {kv : Str × α} (hm : kv ∈ m) :
    lookupA kv.1 m = some kv.2 := by
  induction m with
  | nil => cases hm
  | cons hd rest ih =>
      obtain ⟨k0, v0⟩ := hd
      simp only [List.map_cons, List.nodup_cons] at hnd
      rcases List.mem_cons.1 hm with h | h
      · subst h
        simp [lookupA]
      · have hne : k0 ≠ kv.1 := by
          intro hc
          subst hc
          exact hnd.1 (List.mem_map.2 ⟨kv, h, rfl⟩)
        simp only [lookupA, if_neg hne]
        exact ih hnd.2 h

theorem mem_insertA {α : Type} {k : Str} {v : α} {m : List (Str × α)}
    {kv : Str × α} (h : kv ∈ insertA k v m) : kv = (k, v) ∨ kv ∈ m := by
  induction m with
  | nil => simpa [insertA] using h
  | cons hd rest ih =>
      obtain ⟨k0, v0⟩ := hd
      by_cases hk : k0 = k
      · simp only [insertA, if_pos hk] at h
        rcases List.mem_cons.1 h with h | h
        · exact Or.inl h
        · exact Or.inr (List.mem_cons_of_mem _ h)
      · simp only [insertA, if_neg hk] at h
        rcases List.mem_cons.1 h with h | h
        · exact Or.inr (by simp [h])
        · rcases ih h with h | h
          · exact Or.inl h
          · exact Or.inr (List.mem_cons_of_mem _ h)

theorem insertA_ne_nil {α : Type} (k : Str) (v : α) (m : List (Str × α)) :
    insertA k v m ≠ [] := by
  cases m with
  | nil => simp [insertA]
  | cons hd rest =>
      obtain ⟨k0, v0⟩ := hd
      by_cases hk : k0 = k <;> simp [insertA, hk]

theorem map_fst_insertA_of_mem {α : Type} {k : Str} (v : α) {m : List (Str × α)}
    (h : k ∈ m.map Prod.fst) : (insertA k v m).map Prod.fst = m.map Prod.fst := by
  induction m with
  | nil => simp at h
  | cons hd rest ih =>
      obtain ⟨k0, v0⟩ := hd
      by_cases hk : k0 = k
      · simp [insertA, hk]
      · simp only [List.map_cons, List.mem_cons] at h
        rcases h with h | h
        · exact absurd h.symm hk
        · simp [insertA, hk, ih h]

theorem map_fst_insertA_of_not_mem {α : Type} {k : Str} (v : α) {m : List (Str × α)}
    (h : k ∉ m.map Prod.fst) : (insertA k v m).map Prod.fst = m.map Prod.fst ++ [k] := by
  induction m with
  | nil => simp [insertA]
  | cons hd rest ih =>
      obtain ⟨k0, v0⟩ := hd
      simp only [List.map_cons, List.mem_cons] at h
      push_neg at h
      have hk : ¬ k0 = k := fun hc => h.1 hc.symm
      simp [insertA, hk, ih h.2]

theorem nodup_insertA {α : Type} (k : Str) (v : α) {m : List (Str × α)}
    (h : (m.map Prod.fst).Nodup) : ((insertA k v m).map Prod.fst).Nodup := by
  by_cases hk : k ∈ m.map Prod.fst
  · rw [map_fst_insertA_of_mem v hk]
    exact h
  · rw [map_fst_insertA_of_not_mem v hk]
    simp [List.nodup_append, h, hk]

/-! ## Optional-count arithmetic -/

/-- Summing an accumulator count with a received count, as the merge
loops do: absent delta keys leave the accumulator untouched. -/
def combineOpt (o1 o2 : Option Nat) : Option Nat :=
  match o2 with
  | none => o1
  | some v => some (o1.getD 0 + v)

theorem addOpt_zero (o : Option Nat) : addOpt o 0 = o := by
  simp [addOpt]

theorem addOpt_addOpt (o : Option Nat) (n m : Nat) :
    addOpt (addOpt o n) m = addOpt o (n + m) := by
  rcases o with _ | v <;> by_cases hn : n = 0 <;> by_cases hm : m = 0 <;>
    simp [addOpt, hn, hm] <;> omega

theorem addOpt_none (n : Nat) : addOpt none n = posOpt n := by
  by_cases hn : n = 0 <;> simp [addOpt, posOpt, hn]

theorem getD_addOpt (o : Option Nat) (n : Nat) :
    (addOpt o n).getD 0 = o.getD 0 + n := by
  by_cases hn : n = 0 <;> simp [addOpt, hn]

theorem getD_posOpt (n : Nat) : (posOpt n).getD 0 = n := by
  by_cases hn : n = 0 <;> simp [posOpt, hn]

theorem posOpt_ne_none_iff (n : Nat) : posOpt n ≠ none ↔ n ≠ 0 := by
  by_cases hn : n = 0 <;> simp [posOpt, hn]

theorem combineOpt_posOpt (n m : Nat) :
    combineOpt (posOpt n) (posOpt m) = posOpt (n + m) := by
  by_cases hn : n = 0 <;> by_cases hm : m = 0 <;>
    simp [combineOpt, posOpt, hn, hm] <;> omega

theorem combineOpt_none_left (o : Option Nat) : combineOpt none o = o := by
  rcases o with _ | v <;> simp [combineOpt]

theorem combineOpt_comm (o1 o2 : Option Nat) :
    combineOpt o1 o2 = combineOpt o2 o1 := by
  rcases o1 with _ | v1 <;> rcases o2 with _ | v2 <;>
    simp [combineOpt] <;> omega

theorem combineOpt_assoc (o1 o2 o3 : Option Nat) :
    combineOpt (combineOpt o1 o2) o3 = combineOpt o1 (combineOpt o2 o3) := by
  rcases o1 with _ | v1 <;> rcases o2 with _ | v2 <;> rcases o3 with _ | v3 <;>
    simp [combineOpt] <;> omega

/-! ## The update fold: one author's token stream into one map -/

/-- Folding a token stream into a frequency map with
`update_occurences`, as both the chunk-global map and each author
sub-map are built. -/
def updFold (ts : List Str) (m : FreqMap) : FreqMap :=
  ts.foldl (fun m t => update_occurences t m) m

theorem lookupA_update_occurences (t t0 : Str) (m : FreqMap) :
    lookupA t (update_occurences t0 m) =
      if t0 = t then some ((lookupA t m).getD 0 + 1) else lookupA t m := by
  unfold update_occurences
  rw [lookupA_insertA]
  by_cases h : t0 = t
  · subst h
    simp
  · simp [h]

theorem updFold_nil (m : FreqMap) : updFold [] m = m := rfl

theorem updFold_cons (t0 : Str) (ts : List Str) (m : FreqMap) :
    updFold (t0 :: ts) m = updFold ts (update_occurences t0 m) := rfl

theorem updFold_append (l1 l2 : List Str) (m : FreqMap) :
    updFold (l1 ++ l2) m = updFold l2 (updFold l1 m) := by
  unfold updFold
  rw [List.foldl_append]

theorem lookupA_updFold (ts : List Str) (m : FreqMap) (t : Str) :
    lookupA t (updFold ts m) = addOpt (lookupA t m) (ts.count t) := by
  induction ts generalizing m with
  | nil => simp [updFold_nil, addOpt_zero]
  | cons t0 ts ih =>
      rw [updFold_cons, ih, lookupA_update_occurences]
      by_cases h : t0 = t
      · subst h
        have hc : (t0 :: ts).count t0 = ts.count t0 + 1 := by
          simp [List.count_cons]
        rw [hc]
        rcases hlk : lookupA t0 m with _ | v <;>
          by_cases hn : ts.count t0 = 0 <;> simp [addOpt, hn] <;> omega
      · have hc : (t0 :: ts).count t = ts.count t := by
          simp [List.count_cons, h]
        rw [hc, if_neg h]

theorem update_occurences_ne_nil (t : Str) (m : FreqMap) :
    update_occurences t m ≠ [] :=
  insertA_ne_nil _ _ _

theorem updFold_ne_nil (ts : List Str) {m : FreqMap} (h : m ≠ []) :
    updFold ts m ≠ [] := by
  induction ts generalizing m with
  | nil => exact h
  | cons t0 ts ih => exact ih (update_occurences_ne_nil t0 m)

theorem fmWF_update_occurences {m : FreqMap} (h : fmWF m) (t : Str) :
    fmWF (update_occurences t m) := by
  refine ⟨nodup_insertA _ _ h.1, ?_⟩
  intro kv hkv
  rcases mem_insertA hkv with h' | h'
  · subst h'
    omega
  · exact h.2 kv h'

theorem fmWF_updFold {m : FreqMap} (h : fmWF m) (ts : List Str) :
    fmWF (updFold ts m) := by
  induction ts generalizing m with
  | nil => exact h
  | cons t0 ts ih => exact ih (fmWF_update_occurences h t0)

theorem fmWF_nil : fmWF [] := by
  constructor <;> simp

theorem mmWF_nil : mmWF [] := by
  constructor <;> simp

theorem pairWF_nil : pairWF ([], []) :=
  ⟨fmWF_nil, mmWF_nil⟩

/-! ## The token loop of one message -/

/-- The token loop of lines 149-159 for a single author over a token
stream. -/
def countTokens (a : Str) (ts : List Str) (st : FreqMap × MembersMap) :
    FreqMap × MembersMap :=
  ts.foldl (fun st t => countToken a t st) st

theorem countTokens_nil (a : Str) (st : FreqMap × MembersMap) :
    countTokens a [] st = st := rfl

theorem countTokens_cons (a t0 : Str) (ts : List Str) (st : FreqMap × MembersMap) :
    countTokens a (t0 :: ts) st = countTokens a ts (countToken a t0 st) := rfl

theorem countTokens_append (a : Str) (l1 l2 : List Str) (st : FreqMap × MembersMap) :
    countTokens a (l1 ++ l2) st = countTokens a l2 (countTokens a l1 st) := by
  unfold countTokens
  rw [List.foldl_append]

theorem countToken_fst (a t0 : Str) (st : FreqMap × MembersMap) :
    (countToken a t0 st).1 = update_occurences t0 st.1 := by
  unfold countToken
  rcases lookupA a st.2 with _ | mp <;> rfl

theorem countTokens_fst (a : Str) (ts : List Str) (st : FreqMap × MembersMap) :
    (countTokens a ts st).1 = updFold ts st.1 := by
  induction ts generalizing st with
  | nil => rfl
  | cons t0 ts ih =>
      rw [countTokens_cons, updFold_cons, ih, countToken_fst]

theorem countToken_subMap (a t0 b : Str) (st : FreqMap × MembersMap) :
    subMap b (countToken a t0 st).2 =
      if a = b then update_occurences t0 (subMap a st.2) else subMap b st.2 := by
  unfold countToken subMap
  rcases hlk : lookupA a st.2 with _ | mp
  · simp only [lookupA_insertA]
    by_cases h : a = b
    · subst h
      rw [if_pos rfl, if_pos rfl]
      rfl
    · simp [h]
  · simp only [lookupA_insertA]
    by_cases h : a = b
    · subst h
      rw [if_pos rfl, if_pos rfl]
      rfl
    · simp [h]

theorem countToken_lookup_snd (a t0 b : Str) (st : FreqMap × MembersMap) :
    lookupA b (countToken a t0 st).2 ≠ none ↔ (a = b ∨ lookupA b st.2 ≠ none) := by
  unfold countToken
  rcases hlk : lookupA a st.2 with _ | mp <;>
    simp only [lookupA_insertA] <;>
    by_cases h : a = b
  · subst h
    simp
  · simp [h]
  · subst h
    simp
  · simp [h]

theorem countTokens_subMap (a b : Str) (ts : List Str) (st : FreqMap × MembersMap) :
    subMap b (countTokens a ts st).2 =
      if a = b then updFold ts (subMap a st.2) else subMap b st.2 := by
  induction ts generalizing st with
  | nil =>
      by_cases h : a = b <;> simp [countTokens_nil, updFold_nil, h]
  | cons t0 ts ih =>
      rw [countTokens_cons, ih]
      by_cases h : a = b
      · subst h
        simp [countToken_subMap, updFold_cons]
      · simp [countToken_subMap, h]

theorem countTokens_lookup_snd (a b : Str) (ts : List Str) (st : FreqMap × MembersMap) :
    lookupA b (countTokens a ts st).2 ≠ none ↔
      (lookupA b st.2 ≠ none ∨ (a = b ∧ ts ≠ [])) := by
  induction ts generalizing st with
  | nil => simp [countTokens_nil]
  | cons t0 ts ih =>
      rw [countTokens_cons, ih]
      rw [countToken_lookup_snd]
      constructor
      · rintro ((h | h) | ⟨h1, h2⟩)
        · exact Or.inr ⟨h, by simp⟩
        · exact Or.inl h
        · exact Or.inr ⟨h1, by simp⟩
      · rintro (h | ⟨h1, _⟩)
        · exact Or.inl (Or.inr h)
        · exact Or.inl (Or.inl h1)

theorem mmWF_insertA_sub {mm : MembersMap} (hwf : mmWF mm) {a : Str} {sub : FreqMap}
    (hs : fmWF sub) (hne : sub ≠ []) : mmWF (insertA a sub mm) := by
  refine ⟨nodup_insertA _ _ hwf.1, ?_⟩
  intro av hav
  rcases mem_insertA hav with h | h
  · subst h
    exact ⟨hs, hne⟩
  · exact hwf.2 av h

theorem fmWF_single (t : Str) : fmWF [(t, 1)] := by
  constructor <;> simp

theorem pairWF_countToken (a t0 : Str) {st : FreqMap × MembersMap}
    (hwf : pairWF st) : pairWF (countToken a t0 st) := by
  constructor
  · rw [countToken_fst]
    exact fmWF_update_occurences hwf.1 t0
  · show mmWF (countToken a t0 st).2
    unfold countToken
    rcases hlk : lookupA a st.2 with _ | mp
    · exact mmWF_insertA_sub hwf.2 (fmWF_single t0) (by simp)
    · have hmem : (a, mp) ∈ st.2 := lookupA_mem hlk
      have hsub := hwf.2.2 _ hmem
      exact mmWF_insertA_sub hwf.2 (fmWF_update_occurences hsub.1 t0)
        (update_occurences_ne_nil t0 mp)

theorem pairWF_countTokens (a : Str) (ts : List Str) {st : FreqMap × MembersMap}
    (hwf : pairWF st) : pairWF (countTokens a ts st) := by
  induction ts generalizing st with
  | nil => exact hwf
  | cons t0 ts ih => exact ih (pairWF_countToken a t0 hwf)

theorem processEntities_eq (a : Str) (entities : List TextEntity)
    (st : FreqMap × MembersMap) :
    processEntities a entities st =
      countTokens a ((entities.map entityTokens).flatten) st := by
  induction entities generalizing st with
  | nil => rfl
  | cons e rest ih =>
      show processEntities a rest (countTokens a (entityTokens e) st) = _
      rw [ih, List.map_cons, List.flatten_cons, countTokens_append]

/-! ## Counting per message list -/

theorem countTok_cons (t : Str) (m : Message) (rest : List Message) :
    countTok t (m :: rest) = (msgTokens m).count t + countTok t rest := by
  unfold countTok
  simp [List.count_append]

theorem countBy_cons (b t : Str) (m : Message) (rest : List Message) :
    countBy b t (m :: rest) = (msgTokensBy b m).count t + countBy b t rest := by
  unfold countBy
  simp [List.count_append]

theorem totBy_cons (b : Str) (m : Message) (rest : List Message) :
    totBy b (m :: rest) = (msgTokensBy b m).length + totBy b rest := by
  unfold totBy
  simp

theorem countTok_append (t : Str) (l1 l2 : List Message) :
    countTok t (l1 ++ l2) = countTok t l1 + countTok t l2 := by
  unfold countTok
  simp [List.count_append]

theorem countBy_append (b t : Str) (l1 l2 : List Message) :
    countBy b t (l1 ++ l2) = countBy b t l1 + countBy b t l2 := by
  unfold countBy
  simp [List.count_append]

theorem totBy_append (b : Str) (l1 l2 : List Message) :
    totBy b (l1 ++ l2) = totBy b l1 + totBy b l2 := by
  unfold totBy
  simp

theorem okBind {ε α β : Type} (a : α) (k : α → Except ε β) :
    (Except.ok a >>= k) = k a := rfl

theorem errBind {ε α β : Type} (e : ε) (k : α → Except ε β) :
    (Except.error e >>= k : Except ε β) = Except.error e := rfl

theorem processMessage_service {m : Message} (hsvc : m.type = MessageType.service)
    (st : FreqMap × MembersMap) : processMessage st m = Except.ok st := by
  unfold processMessage
  rw [if_pos hsvc]

theorem processMessage_regular {m : Message} (hsvc : m.type ≠ MessageType.service)
    {a : Str} (hfrom : m.«from» = some a) (st : FreqMap × MembersMap) :
    processMessage st m = Except.ok (countTokens a (msgTokens m) st) := by
  unfold processMessage
  rw [if_neg hsvc, hfrom]
  show Except.ok (processEntities a m.text_entities st) = _
  rw [processEntities_eq]
  have : msgTokens m = (m.text_entities.map entityTokens).flatten := by
    unfold msgTokens
    rw [if_neg hsvc]
  rw [this]

theorem processMessage_authorless {m : Message} (hsvc : m.type ≠ MessageType.service)
    (hfrom : m.«from» = none) (st : FreqMap × MembersMap) :
    processMessage st m = Except.error PanicKind.unwrapNone := by
  unfold processMessage
  rw [if_neg hsvc, hfrom]

theorem msgTokensBy_eq_nil_of_service {m : Message} (hsvc : m.type = MessageType.service)
    (b : Str) : msgTokensBy b m = [] := by
  unfold msgTokensBy msgTokens
  rw [if_pos hsvc]
  simp

theorem msgTokensBy_regular {m : Message} {a : Str} (hfrom : m.«from» = some a) (b : Str) :
    msgTokensBy b m = if a = b then msgTokens m else [] := by
  unfold msgTokensBy
  rw [hfrom]
  by_cases h : a = b
  · subst h
    simp
  · rw [if_neg h, if_neg (by simpa using h)]

/-- Characterization of the worker message loop: starting from state
`st`, processing a panic-free message list adds exactly the occurrence
counts read off by `countTok` / `countBy` / `totBy`. -/
theorem foldlM_processMessage_char (msgs : List Message) :
    ∀ st : FreqMap × MembersMap, processable msgs →
    ∃ stf, List.foldlM processMessage st msgs = Except.ok stf ∧
      (∀ t, lookupA t stf.1 = addOpt (lookupA t st.1) (countTok t msgs)) ∧
      (∀ b t, lookupA t (subMap b stf.2) =
        addOpt (lookupA t (subMap b st.2)) (countBy b t msgs)) ∧
      (∀ b, lookupA b stf.2 ≠ none ↔ (lookupA b st.2 ≠ none ∨ totBy b msgs ≠ 0)) := by
  induction msgs with
  | nil =>
      intro st _
      refine ⟨st, rfl, ?_, ?_, ?_⟩
      · intro t
        simp [countTok, addOpt_zero]
      · intro b t
        simp [countBy, addOpt_zero]
      · intro b
        simp [totBy]
  | cons m rest ih =>
      intro st h
      have hm := h m (List.mem_cons_self _ _)
      have hrest : processable rest := fun m' hm' => h m' (List.mem_cons_of_mem _ hm')
      rw [List.foldlM_cons]
      by_cases hsvc : m.type = MessageType.service
      · rw [processMessage_service hsvc, okBind]
        obtain ⟨stf, heq, h1, h2, h3⟩ := ih st hrest
        have hnilBy : ∀ b, msgTokensBy b m = [] := msgTokensBy_eq_nil_of_service hsvc
        have hnil : msgTokens m = [] := by
          unfold msgTokens
          rw [if_pos hsvc]
        refine ⟨stf, heq, ?_, ?_, ?_⟩
        · intro t
          rw [h1, countTok_cons, hnil]
          simp
        · intro b t
          rw [h2, countBy_cons, hnilBy]
          simp
        · intro b
          rw [h3, totBy_cons, hnilBy]
          simp
      · rcases hfrom : m.«from» with _ | a
        · exact absurd (hm hsvc) (by simp [hfrom])
        · rw [processMessage_regular hsvc hfrom, okBind]
          obtain ⟨stf, heq, h1, h2, h3⟩ := ih (countTokens a (msgTokens m) st) hrest
          have hBy : ∀ b, msgTokensBy b m = if a = b then msgTokens m else [] :=
            msgTokensBy_regular hfrom
          refine ⟨stf, heq, ?_, ?_, ?_⟩
          · intro t
            rw [h1, countTokens_fst, lookupA_updFold, addOpt_addOpt, countTok_cons]
          · intro b t
            rw [h2, countTokens_subMap, countBy_cons, hBy]
            by_cases hab : a = b
            · subst hab
              rw [if_pos rfl, if_pos rfl, lookupA_updFold, addOpt_addOpt]
            · rw [if_neg hab, if_neg hab]
              simp
          · intro b
            rw [h3, countTokens_lookup_snd, totBy_cons, hBy]
            by_cases hab : a = b
            · rw [if_pos hab]
              constructor
              · rintro ((h' | ⟨_, h'⟩) | h')
                · exact Or.inl h'
                · refine Or.inr ?_
                  have : (msgTokens m).length ≠ 0 := by
                    simpa using h'
                  omega
                · exact Or.inr (by omega)
              · rintro (h' | h')
                · exact Or.inl (Or.inl h')
                · by_cases hz : totBy b rest ≠ 0
                  · exact Or.inr hz
                  · refine Or.inl (Or.inr ⟨hab, ?_⟩)
                    intro hc
                    rw [hc] at h'
                    simp at h'
                    omega
            · rw [if_neg hab]
              simp only [List.length_nil, Nat.zero_add]
              constructor
              · rintro ((h' | ⟨hc, _⟩) | h')
                · exact Or.inl h'
                · exact absurd hc hab
                · exact Or.inr h'
              · rintro (h' | h')
                · exact Or.inl (Or.inl h')
                · exact Or.inr h'

/-- The worker message loop preserves well-formedness of its maps. -/
theorem foldlM_processMessage_wf (msgs : List Message) :
    ∀ st stf : FreqMap × MembersMap,
      List.foldlM processMessage st msgs = Except.ok stf → pairWF st → pairWF stf := by
  induction msgs with
  | nil =>
      intro st stf heq hwf
      injection heq with heq
      rw [← heq]
      exact hwf
  | cons m rest ih =>
      intro st stf heq hwf
      rw [List.foldlM_cons] at heq
      by_cases hsvc : m.type = MessageType.service
      · rw [processMessage_service hsvc, okBind] at heq
        exact ih st stf heq hwf
      · rcases hfrom : m.«from» with _ | a
        · rw [processMessage_authorless hsvc hfrom, errBind] at heq
          cases heq
        · rw [processMessage_regular hsvc hfrom, okBind] at heq
          exact ih _ stf heq (pairWF_countTokens a _ hwf)

/-- A chunk containing a regular message without an author makes the
worker loop panic with the `unwrap`-on-`None` panic. -/
theorem foldlM_processMessage_err (msgs : List Message) :
    ∀ st : FreqMap × MembersMap, ¬ processable msgs →
      List.foldlM processMessage st msgs = Except.error PanicKind.unwrapNone := by
  induction msgs with
  | nil =>
      intro st hnp
      exact absurd (by intro m hm; cases hm) hnp
  | cons m rest ih =>
      intro st hnp
      rw [List.foldlM_cons]
      by_cases hsvc : m.type = MessageType.service
      · rw [processMessage_service hsvc, okBind]
        refine ih st ?_
        intro hp
        exact hnp (fun m' hm' => by
          rcases List.mem_cons.1 hm' with h' | h'
          · subst h'
            intro hc
            exact absurd hsvc hc
          · exact hp m' h')
      · rcases hfrom : m.«from» with _ | a
        · rw [processMessage_authorless hsvc hfrom, errBind]
        · rw [processMessage_regular hsvc hfrom, okBind]
          refine ih _ ?_
          intro hp
          exact hnp (fun m' hm' => by
            rcases List.mem_cons.1 hm' with h' | h'
            · subst h'
              intro _
              simp [hfrom]
            · exact hp m' h')

/-! ## Merge-phase characterization -/

theorem mergeTokens_nil_delta (acc : FreqMap) : mergeTokens acc [] = acc := rfl

theorem mergeTokens_cons (acc : FreqMap) (kv : Str × Nat) (rest : FreqMap) :
    mergeTokens acc (kv :: rest) =
      mergeTokens (insertA kv.1 ((lookupA kv.1 acc).getD 0 + kv.2) acc) rest := rfl

theorem lookupA_mergeTokens (delta : FreqMap) :
    ∀ acc : FreqMap, (delta.map Prod.fst).Nodup → ∀ t,
      lookupA t (mergeTokens acc delta) = combineOpt (lookupA t acc) (lookupA t delta) := by
  induction delta with
  | nil =>
      intro acc _ t
      simp [mergeTokens_nil_delta, lookupA, combineOpt]
  | cons kv rest ih =>
      intro acc hnd t
      obtain ⟨k, v⟩ := kv
      simp only [List.map_cons, List.nodup_cons] at hnd
      rw [mergeTokens_cons, ih _ hnd.2, lookupA_insertA]
      by_cases hk : k = t
      · subst hk
        have : lookupA k rest = none :=
          lookupA_eq_none_of_not_mem (by simpa using hnd.1)
        simp [lookupA, this, combineOpt]
      · simp [lookupA, hk]

theorem fmWF_mergeTokens (delta : FreqMap) :
    ∀ acc : FreqMap, fmWF acc → fmWF delta → fmWF (mergeTokens acc delta) := by
  induction delta with
  | nil => intro acc hacc _; exact hacc
  | cons kv rest ih =>
      intro acc hacc hdel
      obtain ⟨k, v⟩ := kv
      rw [mergeTokens_cons]
      have hv : 1 ≤ v := hdel.2 (k, v) (List.mem_cons_self _ _)
      have hdel' : fmWF rest := by
        refine ⟨?_, ?_⟩
        · have := hdel.1
          simp only [List.map_cons, List.nodup_cons] at this
          exact this.2
        · intro kv' h'
          exact hdel.2 kv' (List.mem_cons_of_mem _ h')
      refine ih _ ?_ hdel'
      refine ⟨nodup_insertA _ _ hacc.1, ?_⟩
      intro kv' h'
      rcases mem_insertA h' with h' | h'
      · subst h'
        simp only
        omega
      · exact hacc.2 kv' h'

theorem mergeMemberMap_cons (outer : FreqMap) (kv : Str × Nat) (rest : FreqMap) :
    mergeMemberMap outer (kv :: rest) =
      mergeMemberMap (insertA kv.1 (kv.2 + (lookupA kv.1 outer).getD 0) outer) rest := rfl

theorem lookupA_mergeMemberMap (delta : FreqMap) :
    ∀ outer : FreqMap, (delta.map Prod.fst).Nodup → ∀ t,
      lookupA t (mergeMemberMap outer delta) =
        combineOpt (lookupA t outer) (lookupA t delta) := by
  induction delta with
  | nil =>
      intro outer _ t
      simp [mergeMemberMap, lookupA, combineOpt]
  | cons kv rest ih =>
      intro outer hnd t
      obtain ⟨k, v⟩ := kv
      simp only [List.map_cons, List.nodup_cons] at hnd
      rw [mergeMemberMap_cons, ih _ hnd.2, lookupA_insertA]
      by_cases hk : k = t
      · subst hk
        have : lookupA k rest = none :=
          lookupA_eq_none_of_not_mem (by simpa using hnd.1)
        simp [lookupA, this, combineOpt, Nat.add_comm]
      · simp [lookupA, hk]

theorem fmWF_mergeMemberMap (delta : FreqMap) :
    ∀ outer : FreqMap, fmWF outer → fmWF delta → fmWF (mergeMemberMap outer delta) := by
  induction delta with
  | nil => intro outer houter _; exact houter
  | cons kv rest ih =>
      intro outer houter hdel
      obtain ⟨k, v⟩ := kv
      rw [mergeMemberMap_cons]
      have hv : 1 ≤ v := hdel.2 (k, v) (List.mem_cons_self _ _)
      have hdel' : fmWF rest := by
        refine ⟨?_, ?_⟩
        · have := hdel.1
          simp only [List.map_cons, List.nodup_cons] at this
          exact this.2
        · intro kv' h'
          exact hdel.2 kv' (List.mem_cons_of_mem _ h')
      refine ih _ ?_ hdel'
      refine ⟨nodup_insertA _ _ houter.1, ?_⟩
      intro kv' h'
      rcases mem_insertA h' with h' | h'
      · subst h'
        simp only
        omega
      · exact houter.2 kv' h'

theorem mergeMemberMap_ne_nil (delta : FreqMap) :
    ∀ outer : FreqMap, outer ≠ [] → mergeMemberMap outer delta ≠ [] := by
  induction delta with
  | nil => intro outer h; exact h
  | cons kv rest ih =>
      intro outer _
      rw [mergeMemberMap_cons]
      exact ih _ (insertA_ne_nil _ _ _)

theorem mergeMembers_nil_delta (acc : MembersMap) : mergeMembers acc [] = acc := rfl

theorem mergeMembers_cons (acc : MembersMap) (av : Str × FreqMap) (rest : MembersMap) :
    mergeMembers acc (av :: rest) =
      mergeMembers
        (match lookupA av.1 acc with
          | none => insertA av.1 av.2 acc
          | some outer => insertA av.1 (mergeMemberMap outer av.2) acc)
        rest := rfl

theorem mergeMembers_cons_none {acc : MembersMap} {av : Str × FreqMap}
    (rest : MembersMap) (hlk : lookupA av.1 acc = none) :
    mergeMembers acc (av :: rest) = mergeMembers (insertA av.1 av.2 acc) rest := by
  rw [mergeMembers_cons, hlk]

theorem mergeMembers_cons_some {acc : MembersMap} {av : Str × FreqMap} {outer : FreqMap}
    (rest : MembersMap) (hlk : lookupA av.1 acc = some outer) :
    mergeMembers acc (av :: rest) =
      mergeMembers (insertA av.1 (mergeMemberMap outer av.2) acc) rest := by
  rw [mergeMembers_cons, hlk]

theorem mergeMembers_char (delta : MembersMap) :
    ∀ acc : MembersMap, (delta.map Prod.fst).Nodup →
      (∀ av ∈ delta, (av.2.map Prod.fst).Nodup) →
      (∀ b, lookupA b (mergeMembers acc delta) ≠ none ↔
        (lookupA b acc ≠ none ∨ lookupA b delta ≠ none)) ∧
      (∀ b t, lookupA t (subMap b (mergeMembers acc delta)) =
        combineOpt (lookupA t (subMap b acc)) (lookupA t (subMap b delta))) := by
  induction delta with
  | nil =>
      intro acc _ _
      refine ⟨fun b => ?_, fun b t => ?_⟩
      · simp [mergeMembers_nil_delta, lookupA]
      · simp [mergeMembers_nil_delta, subMap, lookupA, combineOpt]
  | cons av rest ih =>
      intro acc hnd hsub
      obtain ⟨a0, d0⟩ := av
      simp only [List.map_cons, List.nodup_cons] at hnd
      have hd0nd : (d0.map Prod.fst).Nodup := hsub (a0, d0) (List.mem_cons_self _ _)
      have hsubrest : ∀ av ∈ rest, (av.2.map Prod.fst).Nodup :=
        fun av h => hsub av (List.mem_cons_of_mem _ h)
      have ha0rest : lookupA a0 rest = none :=
        lookupA_eq_none_of_not_mem (by simpa using hnd.1)
      have hdcB : ∀ b, lookupA b ((a0, d0) :: rest) ≠ none ↔
          (a0 = b ∨ lookupA b rest ≠ none) := by
        intro b
        simp only [lookupA]
        by_cases hab : a0 = b
        · simp [hab]
        · simp [hab]
      have hdsub : ∀ b, subMap b ((a0, d0) :: rest) =
          if a0 = b then d0 else subMap b rest := by
        intro b
        unfold subMap
        simp only [lookupA]
        by_cases hab : a0 = b
        · simp [hab]
        · simp [hab]
      rcases hlk : lookupA a0 acc with _ | outer
      · rw [mergeMembers_cons_none rest hlk]
        obtain ⟨ihP, ihS⟩ := ih (insertA a0 d0 acc) hnd.2 hsubrest
        refine ⟨fun b => ?_, fun b t => ?_⟩
        · rw [ihP b, hdcB b]
          simp only [lookupA_insertA]
          by_cases hab : a0 = b
          · simp [hab]
          · simp [hab]
        · rw [ihS b t, hdsub b]
          by_cases hab : a0 = b
          · subst hab
            have h1 : subMap a0 (insertA a0 d0 acc) = d0 := by
              unfold subMap
              rw [lookupA_insertA, if_pos rfl]
              rfl
            have h2 : subMap a0 acc = [] := by
              unfold subMap
              rw [hlk]
              rfl
            have h3 : subMap a0 rest = [] := by
              unfold subMap
              rw [ha0rest]
              rfl
            rw [h1, h2, h3, if_pos rfl]
            show combineOpt (lookupA t d0) none =
              combineOpt none (lookupA t d0)
            rw [combineOpt_none_left]
            rfl
          · have h1 : subMap b (insertA a0 d0 acc) = subMap b acc := by
              unfold subMap
              rw [lookupA_insertA, if_neg hab]
            rw [h1, if_neg hab]
      · rw [mergeMembers_cons_some rest hlk]
        obtain ⟨ihP, ihS⟩ := ih (insertA a0 (mergeMemberMap outer d0) acc) hnd.2 hsubrest
        refine ⟨fun b => ?_, fun b t => ?_⟩
        · rw [ihP b, hdcB b]
          simp only [lookupA_insertA]
          by_cases hab : a0 = b
          · simp [hab, hlk]
          · simp [hab]
        · rw [ihS b t, hdsub b]
          by_cases hab : a0 = b
          · subst hab
            have h1 : subMap a0 (insertA a0 (mergeMemberMap outer d0) acc) =
                mergeMemberMap outer d0 := by
              unfold subMap
              rw [lookupA_insertA, if_pos rfl]
              rfl
            have h2 : subMap a0 acc = outer := by
              unfold subMap
              rw [hlk]
              rfl
            have h3 : subMap a0 rest = [] := by
              unfold subMap
              rw [ha0rest]
              rfl
            rw [h1, h2, h3, if_pos rfl]
            show combineOpt (lookupA t (mergeMemberMap outer d0)) none =
              combineOpt (lookupA t outer) (lookupA t d0)
            rw [lookupA_mergeMemberMap d0 outer hd0nd]
            rfl
          · have h1 : subMap b (insertA a0 (mergeMemberMap outer d0) acc) =
                subMap b acc := by
              unfold subMap
              rw [lookupA_insertA, if_neg hab]
            rw [h1, if_neg hab]

theorem mmWF_mergeMembers (delta : MembersMap) :
    ∀ acc : MembersMap, mmWF acc → mmWF delta → mmWF (mergeMembers acc delta) := by
  induction delta with
  | nil => intro acc hacc _; exact hacc
  | cons av rest ih =>
      intro acc hacc hdel
      obtain ⟨a0, d0⟩ := av
      have hd0 := hdel.2 (a0, d0) (List.mem_cons_self _ _)
      have hdel' : mmWF rest := by
        refine ⟨?_, ?_⟩
        · have := hdel.1
          simp only [List.map_cons, List.nodup_cons] at this
          exact this.2
        · intro av' h'
          exact hdel.2 av' (List.mem_cons_of_mem _ h')
      rw [mergeMembers_cons]
      refine ih _ ?_ hdel'
      rcases hlk : lookupA a0 acc with _ | outer
      · exact mmWF_insertA_sub hacc (hd0.1) (hd0.2)
      · have houter := hacc.2 (a0, outer) (lookupA_mem hlk)
        exact mmWF_insertA_sub hacc
          (fmWF_mergeMemberMap d0 outer houter.1 hd0.1)
          (mergeMemberMap_ne_nil d0 outer houter.2)

/-! ## Whole-run characterization -/

theorem processChunk_char (msgs : List Message) (hp : processable msgs) :
    ∃ r, processChunk msgs = Except.ok r ∧ pairWF r ∧
      (∀ t, lookupA t r.1 = posOpt (countTok t msgs)) ∧
      (∀ b t, lookupA t (subMap b r.2) = posOpt (countBy b t msgs)) ∧
      (∀ b, lookupA b r.2 ≠ none ↔ totBy b msgs ≠ 0) := by
  obtain ⟨stf, heq, h1, h2, h3⟩ := foldlM_processMessage_char msgs ([], []) hp
  refine ⟨stf, heq, foldlM_processMessage_wf msgs _ _ heq pairWF_nil, ?_, ?_, ?_⟩
  · intro t
    rw [h1 t]
    show addOpt none _ = _
    rw [addOpt_none]
  · intro b t
    rw [h2 b t]
    show addOpt none _ = _
    rw [addOpt_none]
  · intro b
    rw [h3 b]
    show (none ≠ none ∨ _) ↔ _
    simp

theorem mergeStep_fst (st r : FreqMap × MembersMap) :
    (mergeStep st r).1 = mergeTokens st.1 r.1 := rfl

theorem mergeStep_snd (st r : FreqMap × MembersMap) :
    (mergeStep st r).2 = mergeMembers st.2 r.2 := rfl

theorem gatherFold_char (chs : List (List Message)) :
    ∀ (st : FreqMap × MembersMap) (msgs0 : List Message),
      (∀ ch ∈ chs, processable ch) →
      pairWF st →
      (∀ t, lookupA t st.1 = posOpt (countTok t msgs0)) →
      (∀ b t, lookupA t (subMap b st.2) = posOpt (countBy b t msgs0)) →
      (∀ b, lookupA b st.2 ≠ none ↔ totBy b msgs0 ≠ 0) →
      ∃ rs, chs.mapM processChunk = Except.ok rs ∧
        pairWF (rs.foldl mergeStep st) ∧
        (∀ t, lookupA t (rs.foldl mergeStep st).1 =
          posOpt (countTok t (msgs0 ++ chs.flatten))) ∧
        (∀ b t, lookupA t (subMap b (rs.foldl mergeStep st).2) =
          posOpt (countBy b t (msgs0 ++ chs.flatten))) ∧
        (∀ b, lookupA b (rs.foldl mergeStep st).2 ≠ none ↔
          totBy b (msgs0 ++ chs.flatten) ≠ 0) := by
  induction chs with
  | nil =>
      intro st msgs0 _ hwf hc1 hc2 hc3
      refine ⟨[], rfl, hwf, ?_, ?_, ?_⟩
      · intro t
        simpa using hc1 t
      · intro b t
        simpa using hc2 b t
      · intro b
        simpa using hc3 b
  | cons ch rest ih =>
      intro st msgs0 hpc hwf hc1 hc2 hc3
      obtain ⟨r, hr, hrwf, hr1, hr2, hr3⟩ :=
        processChunk_char ch (hpc ch (List.mem_cons_self _ _))
      have hrnd : (r.1.map Prod.fst).Nodup := hrwf.1.1
      have hrmnd : (r.2.map Prod.fst).Nodup := hrwf.2.1
      have hrsubnd : ∀ av ∈ r.2, (av.2.map Prod.fst).Nodup :=
        fun av h => (hrwf.2.2 av h).1.1
      obtain ⟨hmP, hmS⟩ := mergeMembers_char r.2 st.2 hrmnd hrsubnd
      have hst'1 : ∀ t, lookupA t (mergeStep st r).1 =
          posOpt (countTok t (msgs0 ++ ch)) := by
        intro t
        rw [mergeStep_fst, lookupA_mergeTokens r.1 st.1 hrnd, hc1 t, hr1 t,
          combineOpt_posOpt, countTok_append]
      have hst'2 : ∀ b t, lookupA t (subMap b (mergeStep st r).2) =
          posOpt (countBy b t (msgs0 ++ ch)) := by
        intro b t
        rw [mergeStep_snd, hmS b t, hc2 b t, hr2 b t, combineOpt_posOpt,
          countBy_append]
      have hst'3 : ∀ b, lookupA b (mergeStep st r).2 ≠ none ↔
          totBy b (msgs0 ++ ch) ≠ 0 := by
        intro b
        rw [mergeStep_snd, hmP b, hc3 b, hr3 b, totBy_append]
        omega
      have hst'wf : pairWF (mergeStep st r) :=
        ⟨fmWF_mergeTokens r.1 st.1 hwf.1 hrwf.1,
         mmWF_mergeMembers r.2 st.2 hwf.2 hrwf.2⟩
      obtain ⟨rs, hmapM, hfwf, h1, h2, h3⟩ :=
        ih (mergeStep st r) (msgs0 ++ ch)
          (fun c hc => hpc c (List.mem_cons_of_mem _ hc))
          hst'wf hst'1 hst'2 hst'3
      refine ⟨r :: rs, ?_, ?_, ?_, ?_, ?_⟩
      · rw [List.mapM_cons, hr, okBind, hmapM, okBind]
        rfl
      · simpa using hfwf
      · intro t
        have := h1 t
        rw [List.flatten_cons, ← List.append_assoc]
        simpa using this
      · intro b t
        have := h2 b t
        rw [List.flatten_cons, ← List.append_assoc]
        simpa using this
      · intro b
        have := h3 b
        rw [List.flatten_cons, ← List.append_assoc]
        simpa using this

theorem flatten_range_chunks (l : List Message) (c : Nat) (n : Nat) :
    ((List.range n).map (fun i => (l.drop (i * c)).take c)).flatten =
      l.take (n * c) := by
  induction n with
  | zero => simp
  | succ n ih =>
      rw [List.range_succ, List.map_append, List.flatten_append, ih]
      simp only [List.map_cons, List.map_nil, List.flatten_cons, List.flatten_nil,
        List.append_nil]
      rw [Nat.succ_mul, List.take_add]

theorem flatten_gatherChunks (msgs : List Message) (jobs : Nat) :
    (gatherChunks msgs jobs).flatten =
      msgs.take (jobs * (msgs.length / jobs)) := by
  unfold gatherChunks workerChunk
  rw [flatten_range_chunks]

/-- The prefix of the transcript that the workers actually process:
the trailing `len mod jobs` messages are in no chunk. -/
def processedPrefix (chat : Chat) (jobs : Nat) : List Message :=
  chat.messages.take (jobs * (chat.messages.length / jobs))

/-- Master characterization of a successful `gather` run. -/
theorem gather_char (chat : Chat) (jobs : Nat) (hj : jobs ≠ 0)
    (hp : processable (processedPrefix chat jobs)) :
    ∃ stats, gather chat jobs = Except.ok stats ∧
      stats.num_tokens = stats.tokens_map.length ∧
      fmWF stats.tokens_map ∧ mmWF stats.members_tokens_map ∧
      (∀ t, lookupA t stats.tokens_map =
        posOpt (countTok t (processedPrefix chat jobs))) ∧
      (∀ b t, lookupA t (subMap b stats.members_tokens_map) =
        posOpt (countBy b t (processedPrefix chat jobs))) ∧
      (∀ b, lookupA b stats.members_tokens_map ≠ none ↔
        totBy b (processedPrefix chat jobs) ≠ 0) := by
  have hflat : (gatherChunks chat.messages jobs).flatten = processedPrefix chat jobs :=
    flatten_gatherChunks chat.messages jobs
  have hpc : ∀ ch ∈ gatherChunks chat.messages jobs, processable ch := by
    intro ch hch m hm
    refine hp m ?_
    rw [← hflat]
    exact List.mem_flatten.2 ⟨ch, hch, hm⟩
  obtain ⟨rs, hmapM, hwf, h1, h2, h3⟩ :=
    gatherFold_char (gatherChunks chat.messages jobs) ([], []) [] hpc pairWF_nil
      (by
        intro t
        show (none : Option Nat) = posOpt (countTok t [])
        simp [countTok, posOpt])
      (by
        intro b t
        show (none : Option Nat) = posOpt (countBy b t [])
        simp [countBy, posOpt])
      (by
        intro b
        show (none : Option FreqMap) ≠ none ↔ totBy b [] ≠ 0
        simp [totBy])
  rw [hflat] at h1 h2 h3
  simp only [List.nil_append] at h1 h2 h3
  refine ⟨⟨(rs.foldl mergeStep ([], [])).1.length,
    (rs.foldl mergeStep ([], [])).2, (rs.foldl mergeStep ([], [])).1⟩, ?_, rfl,
    hwf.1, hwf.2, h1, h2, h3⟩
  unfold gather
  rw [if_neg hj, hmapM]

/-- A run whose processed prefix contains an authorless regular message
dies with the `unwrap` panic. -/
theorem mapM_processChunk_err (chs : List (List Message)) :
    (∃ ch ∈ chs, ¬ processable ch) →
      chs.mapM processChunk = Except.error PanicKind.unwrapNone := by
  induction chs with
  | nil =>
      rintro ⟨ch, h, _⟩
      cases h
  | cons ch rest ih =>
      rintro ⟨ch', hch', hnp⟩
      rw [List.mapM_cons]
      by_cases hp : processable ch
      · obtain ⟨r, heq, _⟩ := processChunk_char ch hp
        rw [heq, okBind]
        have hrest : ∃ c ∈ rest, ¬ processable c := by
          rcases List.mem_cons.1 hch' with h | h
          · subst h
            exact absurd hp hnp
          · exact ⟨ch', h, hnp⟩
        rw [ih hrest, errBind]
      · have : processChunk ch = Except.error PanicKind.unwrapNone :=
          foldlM_processMessage_err ch ([], []) hp
        rw [this, errBind]

theorem gather_err (chat : Chat) (jobs : Nat) (hj : jobs ≠ 0)
    (hnp : ¬ processable (processedPrefix chat jobs)) :
    gather chat jobs = Except.error PanicKind.unwrapNone := by
  have hbad : ∃ ch ∈ gatherChunks chat.messages jobs, ¬ processable ch := by
    by_contra hc
    push_neg at hc
    refine hnp ?_
    intro m hm
    unfold processedPrefix at hm
    rw [← flatten_gatherChunks chat.messages jobs] at hm
    obtain ⟨ch, hch, hmch⟩ := List.mem_flatten.1 hm
    exact hc ch hch m hmch
  unfold gather
  rw [if_neg hj, mapM_processChunk_err _ hbad]

/-! ## Map equivalence (HashMap equality) -/

/-- Extensional equality of frequency maps: the same stored count for
every token.  This is exactly equality of the modelled `HashMap`s,
which carry no key order. -/
def fmEquiv (m1 m2 : FreqMap) : Prop :=
  ∀ t, lookupA t m1 = lookupA t m2

/-- Extensional equality of per-author maps: the same authors present,
with extensionally equal sub-maps. -/
def mmEquiv (m1 m2 : MembersMap) : Prop :=
  (∀ b, lookupA b m1 ≠ none ↔ lookupA b m2 ≠ none) ∧
  (∀ b t, lookupA t (subMap b m1) = lookupA t (subMap b m2))

/-- Equality of two `ChatStatistics` values up to `HashMap` equality. -/
def statsEquiv (s1 s2 : ChatStatistics) : Prop :=
  s1.num_tokens = s2.num_tokens ∧
  fmEquiv s1.tokens_map s2.tokens_map ∧
  mmEquiv s1.members_tokens_map s2.members_tokens_map

/-- Equality of two `gather` outcomes: the same panic, or statistics
equal up to `HashMap` equality. -/
def resultEquiv : Except PanicKind ChatStatistics → Except PanicKind ChatStatistics → Prop
  | Except.error e1, Except.error e2 => e1 = e2
  | Except.ok s1, Except.ok s2 => statsEquiv s1 s2
  | _, _ => False

/-- No-duplicate-key condition on a frequency map (every `HashMap`
satisfies it). -/
def fmNodup (m : FreqMap) : Prop :=
  (m.map Prod.fst).Nodup

/-- No-duplicate-key condition on a members map and its sub-maps. -/
def mmNodup (m : MembersMap) : Prop :=
  (m.map Prod.fst).Nodup ∧ ∀ av ∈ m, (av.2.map Prod.fst).Nodup

theorem length_eq_of_fmEquiv {m1 m2 : FreqMap} (h : fmEquiv m1 m2)
    (h1 : fmNodup m1) (h2 : fmNodup m2) : m1.length = m2.length := by
  have hperm : (m1.map Prod.fst).Perm (m2.map Prod.fst) := by
    rw [List.perm_ext_iff_of_nodup h1 h2]
    intro k
    rw [← lookupA_ne_none_iff, ← lookupA_ne_none_iff, h k]
  have := hperm.length_eq
  simpa using this

theorem fmNodup_mergeTokens (delta : FreqMap) :
    ∀ acc : FreqMap, fmNodup acc → fmNodup (mergeTokens acc delta) := by
  induction delta with
  | nil => intro acc h; exact h
  | cons kv rest ih =>
      intro acc h
      rw [mergeTokens_cons]
      exact ih _ (nodup_insertA _ _ h)

/-- Commutativity of the chunk-global merge, extensionally. -/
theorem mergeTokens_comm {m1 m2 : FreqMap} (h1 : fmNodup m1) (h2 : fmNodup m2) :
    fmEquiv (mergeTokens m1 m2) (mergeTokens m2 m1) := by
  intro t
  rw [lookupA_mergeTokens m2 m1 h2, lookupA_mergeTokens m1 m2 h1, combineOpt_comm]

/-- Associativity of the chunk-global merge, extensionally. -/
theorem mergeTokens_assoc {m1 m2 m3 : FreqMap} (h2 : fmNodup m2) (h3 : fmNodup m3) :
    fmEquiv (mergeTokens (mergeTokens m1 m2) m3) (mergeTokens m1 (mergeTokens m2 m3)) := by
  intro t
  rw [lookupA_mergeTokens m3 _ h3, lookupA_mergeTokens m2 m1 h2,
    lookupA_mergeTokens (mergeTokens m2 m3) m1 (fmNodup_mergeTokens m3 m2 h2),
    lookupA_mergeTokens m3 m2 h3, combineOpt_assoc]

/-- Commutativity of the per-author merge, extensionally. -/
theorem mergeMembers_comm {n1 n2 : MembersMap} (h1 : mmNodup n1) (h2 : mmNodup n2) :
    mmEquiv (mergeMembers n1 n2) (mergeMembers n2 n1) := by
  obtain ⟨h12P, h12S⟩ := mergeMembers_char n2 n1 h2.1 h2.2
  obtain ⟨h21P, h21S⟩ := mergeMembers_char n1 n2 h1.1 h1.2
  constructor
  · intro b
    rw [h12P b, h21P b]
    tauto
  · intro b t
    rw [h12S b t, h21S b t, combineOpt_comm]

theorem mmNodup_insertA_sub {mm : MembersMap} (h : mmNodup mm) {a : Str}
    {sub : FreqMap} (hs : fmNodup sub) : mmNodup (insertA a sub mm) := by
  refine ⟨nodup_insertA _ _ h.1, ?_⟩
  intro av hav
  rcases mem_insertA hav with h' | h'
  · subst h'
    exact hs
  · exact h.2 av h'

theorem fmNodup_mergeMemberMap (delta : FreqMap) :
    ∀ outer : FreqMap, fmNodup outer → fmNodup (mergeMemberMap outer delta) := by
  induction delta with
  | nil => intro outer h; exact h
  | cons kv rest ih =>
      intro outer h
      rw [mergeMemberMap_cons]
      exact ih _ (nodup_insertA _ _ h)

theorem mmNodup_mergeMembers (delta : MembersMap) :
    ∀ acc : MembersMap, mmNodup acc → mmNodup delta →
      mmNodup (mergeMembers acc delta) := by
  induction delta with
  | nil => intro acc h _; exact h
  | cons av rest ih =>
      intro acc hacc hdel
      obtain ⟨a0, d0⟩ := av
      have hd0 : fmNodup d0 := hdel.2 (a0, d0) (List.mem_cons_self _ _)
      have hdel' : mmNodup rest := by
        refine ⟨?_, fun av h => hdel.2 av (List.mem_cons_of_mem _ h)⟩
        have := hdel.1
        simp only [List.map_cons, List.nodup_cons] at this
        exact this.2
      rw [mergeMembers_cons]
      refine ih _ ?_ hdel'
      rcases hlk : lookupA a0 acc with _ | outer
      · exact mmNodup_insertA_sub hacc hd0
      · have houter : fmNodup outer := (hacc.2 (a0, outer) (lookupA_mem hlk))
        exact mmNodup_insertA_sub hacc (fmNodup_mergeMemberMap d0 outer houter)

/-- Associativity of the per-author merge, extensionally. -/
theorem mergeMembers_assoc {n1 n2 n3 : MembersMap} (h2 : mmNodup n2) (h3 : mmNodup n3) :
    mmEquiv (mergeMembers (mergeMembers n1 n2) n3)
      (mergeMembers n1 (mergeMembers n2 n3)) := by
  have h23 : mmNodup (mergeMembers n2 n3) := mmNodup_mergeMembers n3 n2 h2 h3
  obtain ⟨hL2P, hL2S⟩ := mergeMembers_char n2 n1 h2.1 h2.2
  obtain ⟨hL3P, hL3S⟩ := mergeMembers_char n3 (mergeMembers n1 n2) h3.1 h3.2
  obtain ⟨hR23P, hR23S⟩ := mergeMembers_char n3 n2 h3.1 h3.2
  obtain ⟨hRP, hRS⟩ := mergeMembers_char (mergeMembers n2 n3) n1 h23.1 h23.2
  constructor
  · intro b
    rw [hL3P b, hL2P b, hRP b, hR23P b]
    tauto
  · intro b t
    rw [hL3S b t, hL2S b t, hRS b t, hR23S b t, combineOpt_assoc]

/-- No-duplicate-key condition on one worker's result pair. -/
def pairNodup (st : FreqMap × MembersMap) : Prop :=
  fmNodup st.1 ∧ mmNodup st.2

theorem foldl_perm_of_step_comm {α β : Type} (f : β → α → β)
    (hcomm : ∀ b a1 a2, f (f b a1) a2 = f (f b a2) a1) :
    ∀ {l1 l2 : List α}, l1.Perm l2 → ∀ b, l1.foldl f b = l2.foldl f b := by
  intro l1 l2 hperm
  induction hperm with
  | nil => intro b; rfl
  | cons x _ ih =>
      intro b
      rw [List.foldl_cons, List.foldl_cons, ih]
  | swap x y l =>
      intro b
      rw [List.foldl_cons, List.foldl_cons, List.foldl_cons, List.foldl_cons, hcomm]
  | trans _ _ ih1 ih2 =>
      intro b
      rw [ih1, ih2]

/-- The accumulator fold of lines 166-185 observed through lookups:
each component is a `combineOpt` fold over the received results. -/
theorem foldl_mergeStep_char (rs : List (FreqMap × MembersMap)) :
    ∀ st : FreqMap × MembersMap, (∀ r ∈ rs, pairNodup r) →
      (∀ t, lookupA t (rs.foldl mergeStep st).1 =
        rs.foldl (fun o r => combineOpt o (lookupA t r.1)) (lookupA t st.1)) ∧
      (∀ b, lookupA b (rs.foldl mergeStep st).2 ≠ none ↔
        (lookupA b st.2 ≠ none ∨ ∃ r ∈ rs, lookupA b r.2 ≠ none)) ∧
      (∀ b t, lookupA t (subMap b (rs.foldl mergeStep st).2) =
        rs.foldl (fun o r => combineOpt o (lookupA t (subMap b r.2)))
          (lookupA t (subMap b st.2))) := by
  induction rs with
  | nil =>
      intro st _
      refine ⟨fun t => rfl, fun b => ?_, fun b t => rfl⟩
      simp
  | cons r rest ih =>
      intro st hwf
      have hr := hwf r (List.mem_cons_self _ _)
      have hrest : ∀ r' ∈ rest, pairNodup r' :=
        fun r' h => hwf r' (List.mem_cons_of_mem _ h)
      obtain ⟨mmP, mmS⟩ := mergeMembers_char r.2 st.2 hr.2.1 hr.2.2
      obtain ⟨ih1, ih2, ih3⟩ := ih (mergeStep st r) hrest
      refine ⟨fun t => ?_, fun b => ?_, fun b t => ?_⟩
      · rw [List.foldl_cons, List.foldl_cons, ih1 t]
        congr 1
        rw [mergeStep_fst, lookupA_mergeTokens r.1 st.1 hr.1]
      · rw [List.foldl_cons, ih2 b, mergeStep_snd, mmP b]
        constructor
        · rintro ((h | h) | ⟨r', hr', h⟩)
          · exact Or.inl h
          · exact Or.inr ⟨r, List.mem_cons_self _ _, h⟩
          · exact Or.inr ⟨r', List.mem_cons_of_mem _ hr', h⟩
        · rintro (h | ⟨r', hr', h⟩)
          · exact Or.inl (Or.inl h)
          · rcases List.mem_cons.1 hr' with h' | h'
            · subst h'
              exact Or.inl (Or.inr h)
            · exact Or.inr ⟨r', h', h⟩
      · rw [List.foldl_cons, List.foldl_cons, ih3 b t]
        congr 1
        rw [mergeStep_snd, mmS b t]

/-- Folding the worker results in any arrival order produces the same
pair of maps (as `HashMap`s): the content of the claim that merge
commutativity and associativity make the run order-independent. -/
theorem foldl_mergeStep_perm {rs rs' : List (FreqMap × MembersMap)}
    (hperm : rs.Perm rs') (hwf : ∀ r ∈ rs, pairNodup r) :
    fmEquiv (rs.foldl mergeStep ([], [])).1 (rs'.foldl mergeStep ([], [])).1 ∧
    mmEquiv (rs.foldl mergeStep ([], [])).2 (rs'.foldl mergeStep ([], [])).2 := by
  have hwf' : ∀ r ∈ rs', pairNodup r := fun r h => hwf r (hperm.mem_iff.2 h)
  obtain ⟨h1, h2, h3⟩ := foldl_mergeStep_char rs ([], []) hwf
  obtain ⟨h1', h2', h3'⟩ := foldl_mergeStep_char rs' ([], []) hwf'
  have hstep : ∀ (g : (FreqMap × MembersMap) → Option Nat) (o : Option Nat) r1 r2,
      combineOpt (combineOpt o (g r1)) (g r2) =
        combineOpt (combineOpt o (g r2)) (g r1) := by
    intro g o r1 r2
    rw [combineOpt_assoc, combineOpt_assoc, combineOpt_comm (g r1) (g r2)]
  refine ⟨fun t => ?_, fun b => ?_, fun b t => ?_⟩
  · rw [h1 t, h1' t]
    exact foldl_perm_of_step_comm _ (hstep (fun r => lookupA t r.1)) hperm _
  · rw [h2 b, h2' b]
    constructor
    · rintro (h | ⟨r, hr, h⟩)
      · exact Or.inl h
      · exact Or.inr ⟨r, hperm.mem_iff.1 hr, h⟩
    · rintro (h | ⟨r, hr, h⟩)
      · exact Or.inl h
      · exact Or.inr ⟨r, hperm.mem_iff.2 hr, h⟩
  · rw [h3 b t, h3' b t]
    exact foldl_perm_of_step_comm _ (hstep (fun r => lookupA t (subMap b r.2))) hperm _

/-! ## Consequences of a successful run -/

/-- Everything a successful `gather` run guarantees, bundled. -/
theorem gather_ok_char {chat : Chat} {jobs : Nat} {stats : ChatStatistics}
    (h : gather chat jobs = Except.ok stats) :
    jobs ≠ 0 ∧ processable (processedPrefix chat jobs) ∧
    stats.num_tokens = stats.tokens_map.length ∧
    fmWF stats.tokens_map ∧ mmWF stats.members_tokens_map ∧
    (∀ t, lookupA t stats.tokens_map =
      posOpt (countTok t (processedPrefix chat jobs))) ∧
    (∀ b t, lookupA t (subMap b stats.members_tokens_map) =
      posOpt (countBy b t (processedPrefix chat jobs))) ∧
    (∀ b, lookupA b stats.members_tokens_map ≠ none ↔
      totBy b (processedPrefix chat jobs) ≠ 0) := by
  have hj : jobs ≠ 0 := by
    intro hc
    subst hc
    unfold gather at h
    rw [if_pos rfl] at h
    cases h
  have hp : processable (processedPrefix chat jobs) := by
    by_contra hc
    rw [gather_err chat jobs hj hc] at h
    cases h
  obtain ⟨stats', heq, h1, h2, h3, h4, h5, h6⟩ := gather_char chat jobs hj hp
  rw [h] at heq
  injection heq with heq
  subst heq
  exact ⟨hj, hp, h1, h2, h3, h4, h5, h6⟩

theorem eq_nil_of_lookupA_none {α : Type} {m : List (Str × α)}
    (h : ∀ k, lookupA k m = none) : m = [] := by
  cases m with
  | nil => rfl
  | cons kv rest =>
      obtain ⟨k, v⟩ := kv
      have := h k
      rw [lookupA, if_pos rfl] at this
      cases this

/-! ## Summing per-author counts -/

theorem sum_map_add_str (S : List Str) (f g : Str → Nat) :
    (S.map (fun a => f a + g a)).sum = (S.map f).sum + (S.map g).sum := by
  induction S with
  | nil => rfl
  | cons a rest ih =>
      simp only [List.map_cons, List.sum_cons, ih]
      omega

theorem sum_map_ite_eq (S : List Str) (hS : S.Nodup) (b : Str) (v : Nat) :
    (S.map (fun a => if b = a then v else 0)).sum = if b ∈ S then v else 0 := by
  induction S with
  | nil => simp
  | cons a0 rest ih =>
      simp only [List.nodup_cons] at hS
      rw [List.map_cons, List.sum_cons, ih hS.2]
      by_cases hab : b = a0
      · subst hab
        simp [hS.1]
      · by_cases hbr : b ∈ rest
        · simp [hab, hbr]
        · simp [hab, hbr]

/-- Every occurrence of `t` belongs to exactly one author, so the
global count is the sum of the per-author counts over any duplicate-free
author list covering all contributing messages. -/
theorem countTok_eq_sum_countBy (t : Str) (msgs : List Message) (S : List Str)
    (hS : S.Nodup)
    (hcov : ∀ m ∈ msgs, (msgTokens m).count t ≠ 0 →
      ∃ a, m.«from» = some a ∧ a ∈ S) :
    countTok t msgs = (S.map (fun a => countBy a t msgs)).sum := by
  induction msgs with
  | nil =>
      simp [countTok, countBy]
  | cons m rest ih =>
      have hrest : ∀ m' ∈ rest, (msgTokens m').count t ≠ 0 →
          ∃ a, m'.«from» = some a ∧ a ∈ S :=
        fun m' h => hcov m' (List.mem_cons_of_mem _ h)
      rw [countTok_cons]
      have hsplit : (S.map (fun a => countBy a t (m :: rest))).sum =
          (S.map (fun a => (msgTokensBy a m).count t)).sum +
          (S.map (fun a => countBy a t rest)).sum := by
        rw [← sum_map_add_str]
        congr 1
        exact List.map_congr_left (fun a _ => countBy_cons a t m rest)
      rw [hsplit, ← ih hrest]
      congr 1
      by_cases hz : (msgTokens m).count t = 0
      · rw [hz]
        symm
        apply List.sum_eq_zero
        intro x hx
        obtain ⟨a, _, hax⟩ := List.mem_map.1 hx
        subst hax
        unfold msgTokensBy
        by_cases hf : m.«from» = some a
        · rw [if_pos hf]
          exact hz
        · rw [if_neg hf]
          rfl
      · obtain ⟨a0, hfrom, ha0⟩ := hcov m (List.mem_cons_self _ _) hz
        have hform : ∀ a : Str, (msgTokensBy a m).count t =
            if a0 = a then (msgTokens m).count t else 0 := by
          intro a
          rw [msgTokensBy_regular hfrom]
          by_cases hf : a0 = a
          · rw [if_pos hf, if_pos hf]
          · rw [if_neg hf, if_neg hf]
            rfl
        rw [List.map_congr_left (fun a _ => hform a),
          sum_map_ite_eq S hS a0 _, if_pos ha0]

/-- A message of author `a` with a non-empty token stream forces a
positive total for `a`. -/
theorem totBy_pos_of_mem {m : Message} {msgs : List Message} (hm : m ∈ msgs)
    {a : Str} (hfrom : m.«from» = some a) (hne : msgTokens m ≠ []) :
    totBy a msgs ≠ 0 := by
  unfold totBy
  rw [List.length_flatten]
  have hmem : (msgTokensBy a m).length ∈
      ((msgs.map (msgTokensBy a)).map List.length) :=
    List.mem_map_of_mem _ (List.mem_map_of_mem _ hm)
  have hle : (msgTokensBy a m).length ≤
      (((msgs.map (msgTokensBy a)).map List.length)).sum :=
    List.single_le_sum (fun x _ => Nat.zero_le x) _ hmem
  have hlen : (msgTokensBy a m).length ≠ 0 := by
    unfold msgTokensBy
    rw [if_pos hfrom]
    simpa using hne
  omega

/-! ## Concrete sample inputs -/

instance {ε α : Type} [DecidableEq ε] [DecidableEq α] : DecidableEq (Except ε α) := fun x y => by
  cases x with
  | error e1 =>
      cases y with
      | error e2 =>
          exact if h : e1 = e2 then isTrue (by rw [h])
            else isFalse (fun hc => h (by cases hc; rfl))
      | ok a2 => exact isFalse (fun hc => by cases hc)
  | ok a1 =>
      cases y with
      | error e2 => exact isFalse (fun hc => by cases hc)
      | ok a2 =>
          exact if h : a1 = a2 then isTrue (by rw [h])
            else isFalse (fun hc => h (by cases hc; rfl))

/-- A small three-message transcript: author `A` says "hello world"
and "hello!", author `B` says "world". -/
def sampleChat : Chat :=
  ⟨"sample", ChatType.personalChat, 0,
    [⟨1, MessageType.message, some ['A'], [⟨TextEntityType.plain, "hello world".data⟩]⟩,
     ⟨2, MessageType.message, some ['A'], [⟨TextEntityType.plain, "hello!".data⟩]⟩,
     ⟨3, MessageType.message, some ['B'], [⟨TextEntityType.plain, "world".data⟩]⟩]⟩

/-- The statistics a single-threaded run produces on `sampleChat`. -/
def sampleStats : ChatStatistics :=
  ⟨3,
   [(['A'], [("hello".data, 1), ("world".data, 1), ("hello!".data, 1)]),
    (['B'], [("world".data, 1)])],
   [("hello".data, 1), ("world".data, 2), ("hello!".data, 1)]⟩

/-- A transcript whose single regular message carries no author. -/
def authorlessChat : Chat :=
  ⟨"broken", ChatType.personalChat, 0,
    [⟨1, MessageType.message, none, []⟩]⟩

/-- A transcript whose single segment is of kind `Phone`. -/
def phoneChat : Chat :=
  ⟨"phone", ChatType.personalChat, 0,
    [⟨1, MessageType.message, some ['A'], [⟨TextEntityType.phone, "123".data⟩]⟩]⟩

/-- A transcript whose single segment is one emoji. -/
def emojiChat : Chat :=
  ⟨"emoji", ChatType.personalChat, 0,
    [⟨1, MessageType.message, some ['A'], [⟨TextEntityType.plain, "😀".data⟩]⟩]⟩

/-- A one-message, one-segment transcript with author `a`, segment
kind `ty` and segment text `s`. -/
def mkSingleChat (a : Str) (ty : TextEntityType) (s : Str) : Chat :=
  ⟨"single", ChatType.personalChat, 0,
    [⟨1, MessageType.message, some a, [⟨ty, s⟩]⟩]⟩

/-! ## Claim C6: the partitioner -/

/-- **C6**: For every message list of length `len` and every
`worker_count ≥ 1`, the partitioner produces exactly `worker_count`
contiguous, non-overlapping ranges of `floor(len/worker_count)`
messages each; the trailing `len mod worker_count` messages belong to
no chunk and contribute nothing to the statistics (a run on the
truncated transcript gives the identical result); when `worker_count`
exceeds the message count every chunk is empty and the run succeeds
with empty maps. -/
theorem partition_chunks_spec (chat : Chat) (jobs : Nat) (hj : 1 ≤ jobs) :
    (gatherChunks chat.messages jobs).length = jobs ∧
    (∀ i, i < jobs →
      (workerChunk chat.messages i (chat.messages.length / jobs)).length =
        chat.messages.length / jobs) ∧
    (gatherChunks chat.messages jobs).flatten =
      chat.messages.take (jobs * (chat.messages.length / jobs)) ∧
    jobs * (chat.messages.length / jobs) =
      chat.messages.length - chat.messages.length % jobs ∧
    gather chat jobs =
      gather ⟨chat.name, chat.type, chat.id, processedPrefix chat jobs⟩ jobs ∧
    (chat.messages.length < jobs → gather chat jobs = Except.ok ⟨0, [], []⟩) := by
  have hj0 : jobs ≠ 0 := by omega
  have hmul : jobs * (chat.messages.length / jobs) ≤ chat.messages.length := by
    rw [Nat.mul_comm]
    exact Nat.div_mul_le_self chat.messages.length jobs
  refine ⟨?_, ?_, ?_, ?_, ?_, ?_⟩
  · simp [gatherChunks]
  · intro i hi
    have h1 : (i + 1) * (chat.messages.length / jobs) ≤
        jobs * (chat.messages.length / jobs) :=
      Nat.mul_le_mul_right _ (by omega)
    have h2 : (i + 1) * (chat.messages.length / jobs) =
        i * (chat.messages.length / jobs) + chat.messages.length / jobs :=
      Nat.succ_mul _ _
    unfold workerChunk
    rw [List.length_take, List.length_drop]
    omega
  · exact flatten_gatherChunks chat.messages jobs
  · have := Nat.div_add_mod chat.messages.length jobs
    omega
  · have hlenpre : (processedPrefix chat jobs).length =
        jobs * (chat.messages.length / jobs) := by
      unfold processedPrefix
      rw [List.length_take]
      omega
    have hcpre : (processedPrefix chat jobs).length / jobs =
        chat.messages.length / jobs := by
      rw [hlenpre]
      exact Nat.mul_div_cancel_left _ (by omega)
    have hchunks : gatherChunks (processedPrefix chat jobs) jobs =
        gatherChunks chat.messages jobs := by
      unfold gatherChunks
      rw [hcpre]
      apply List.map_congr_left
      intro i hi
      have hilt : i < jobs := List.mem_range.1 hi
      unfold workerChunk processedPrefix
      rw [List.drop_take, List.take_take]
      congr 1
      have h1 : (i + 1) * (chat.messages.length / jobs) ≤
          jobs * (chat.messages.length / jobs) :=
        Nat.mul_le_mul_right _ (by omega)
      have h2 : (i + 1) * (chat.messages.length / jobs) =
          i * (chat.messages.length / jobs) + chat.messages.length / jobs :=
        Nat.succ_mul _ _
      omega
    show gather chat jobs =
      gather ⟨chat.name, chat.type, chat.id, processedPrefix chat jobs⟩ jobs
    unfold gather
    rw [if_neg hj0, if_neg hj0]
    have : gatherChunks (Chat.mk chat.name chat.type chat.id
        (processedPrefix chat jobs)).messages jobs =
        gatherChunks chat.messages jobs := hchunks
    rw [this]
  · intro hlt
    have hc0 : chat.messages.length / jobs = 0 := Nat.div_eq_of_lt hlt
    have hpre : processedPrefix chat jobs = [] := by
      unfold processedPrefix
      rw [hc0]
      simp
    have hp : processable (processedPrefix chat jobs) := by
      rw [hpre]
      intro m hm
      cases hm
    obtain ⟨stats, heq, h1, _, _, h4, _, h6⟩ := gather_char chat jobs hj0 hp
    rw [heq]
    have htm : stats.tokens_map = [] := by
      apply eq_nil_of_lookupA_none
      intro k
      rw [h4 k, hpre]
      simp [countTok, posOpt]
    have hmm : stats.members_tokens_map = [] := by
      apply eq_nil_of_lookupA_none
      intro k
      by_contra hk
      have hne := (h6 k).1 hk
      rw [hpre] at hne
      exact hne (by simp [totBy])
    rcases stats with ⟨nt, mm, tm⟩
    simp only at htm hmm h1
    subst htm
    subst hmm
    simp only [List.length_nil] at h1
    subst h1
    rfl

/-- Witness for C6 at `sampleChat` with two workers (three messages,
so one trailing message is dropped). -/
theorem partition_chunks_spec_witness :
    (gatherChunks sampleChat.messages 2).length = 2 ∧
    (∀ i, i < 2 →
      (workerChunk sampleChat.messages i (sampleChat.messages.length / 2)).length =
        sampleChat.messages.length / 2) ∧
    (gatherChunks sampleChat.messages 2).flatten =
      sampleChat.messages.take (2 * (sampleChat.messages.length / 2)) ∧
    2 * (sampleChat.messages.length / 2) =
      sampleChat.messages.length - sampleChat.messages.length % 2 ∧
    gather sampleChat 2 =
      gather ⟨sampleChat.name, sampleChat.type, sampleChat.id,
        processedPrefix sampleChat 2⟩ 2 ∧
    (sampleChat.messages.length < 2 → gather sampleChat 2 = Except.ok ⟨0, [], []⟩) :=
  partition_chunks_spec sampleChat 2 (by decide)

/-! ## Claim C8: worker count zero -/

/-- **C8 counterexample**: a worker count of `0` is not rejected before
partitioning: evaluation reaches the chunk-size division
`num_messages / jobs` of line 131 and dies with the division-by-zero
panic, not with a prior configuration error. -/
theorem gather_zero_jobs_div_by_zero :
    gather sampleChat 0 = Except.error PanicKind.divByZero := rfl

/-- **C8 amended**: calling `gather` with a worker count of `0` always
aborts the run with the division-by-zero panic raised by the
partitioning arithmetic itself (it is never silently defaulted, but
neither is it caught before partitioning). -/
theorem gather_zero_jobs_panics (chat : Chat) :
    gather chat 0 = Except.error PanicKind.divByZero := rfl

/-! ## Claim C9: totality under the author precondition -/

/-- A three-message transcript whose authorless regular message (with
text to contribute) sits in the tail that two workers drop. -/
def tailAuthorlessChat : Chat :=
  ⟨"tail", ChatType.personalChat, 0,
    [⟨1, MessageType.message, some ['A'], [⟨TextEntityType.plain, "hi".data⟩]⟩,
     ⟨2, MessageType.message, some ['A'], [⟨TextEntityType.plain, "yo".data⟩]⟩,
     ⟨3, MessageType.message, none, [⟨TextEntityType.plain, "lost".data⟩]⟩]⟩

/-- **C9 counterexample**: an authorless regular message does not
always abort the run.  Here it lies among the `len mod worker_count`
dropped tail messages, is never read, and `gather` returns partial
statistics covering the two processed messages — contradicting the
claim that such a message causes a fatal, immediate abort rather than
a partial result. -/
theorem tail_authorless_message_not_fatal :
    (∃ m ∈ tailAuthorlessChat.messages,
      m.type ≠ MessageType.service ∧ m.«from» = none ∧ m.text_entities ≠ []) ∧
    gather tailAuthorlessChat 2 =
      Except.ok ⟨2, [(['A'], [("hi".data, 1), ("yo".data, 1)])],
        [("hi".data, 1), ("yo".data, 1)]⟩ := by decide

/-- **C9 amended**: under the precondition that every non-`Service`
message carries an author (and a positive worker count), `gather` never
panics: the `unwrap` branch is unreachable and the run returns
statistics.  Without the precondition, a regular message lacking an
author causes the fatal, immediate `unwrap` abort exactly when it lies
in the processed prefix (the first `worker_count * floor(len/worker_count)`
messages); an authorless message among the dropped tail is never read
and the run returns the prefix's statistics. -/
theorem gather_total_with_authors (chat : Chat) (jobs : Nat) (hj : 1 ≤ jobs) :
    ((∀ m ∈ chat.messages, m.type ≠ MessageType.service → (m.«from»).isSome) →
      ∃ stats, gather chat jobs = Except.ok stats) ∧
    ((∃ m ∈ processedPrefix chat jobs,
        m.type ≠ MessageType.service ∧ m.«from» = none) →
      gather chat jobs = Except.error PanicKind.unwrapNone) := by
  constructor
  · intro hauth
    have hp : processable (processedPrefix chat jobs) := by
      intro m hm
      exact hauth m (List.take_subset _ _ hm)
    obtain ⟨stats, heq, _⟩ := gather_char chat jobs (by omega) hp
    exact ⟨stats, heq⟩
  · rintro ⟨m, hm, hsvc, hnone⟩
    apply gather_err chat jobs (by omega)
    intro hp
    have := hp m hm hsvc
    rw [hnone] at this
    simp at this

/-- Witness for C9 at `authorlessChat` with one worker: its authorless
message is in the processed prefix, so the run aborts with the
`unwrap` panic. -/
theorem gather_total_with_authors_witness :
    ((∀ m ∈ authorlessChat.messages,
        m.type ≠ MessageType.service → (m.«from»).isSome) →
      ∃ stats, gather authorlessChat 1 = Except.ok stats) ∧
    ((∃ m ∈ processedPrefix authorlessChat 1,
        m.type ≠ MessageType.service ∧ m.«from» = none) →
      gather authorlessChat 1 = Except.error PanicKind.unwrapNone) :=
  gather_total_with_authors authorlessChat 1 (by decide)

/-! ## Claim C7: `num_tokens` and positive counts -/

/-- **C7**: in every `ChatStatistics` that `gather` returns,
`num_tokens` is the number of distinct keys of the global map (set at
construction from that very map), and every stored count in the global
map and in every per-author map is at least `1`. -/
theorem num_tokens_and_positive_counts (chat : Chat) (jobs : Nat)
    (stats : ChatStatistics) (h : gather chat jobs = Except.ok stats) :
    stats.num_tokens = (stats.tokens_map.map Prod.fst).dedup.length ∧
    (∀ kv ∈ stats.tokens_map, 1 ≤ kv.2) ∧
    (∀ av ∈ stats.members_tokens_map, ∀ kv ∈ av.2, 1 ≤ kv.2) := by
  obtain ⟨_, _, hnum, hfm, hmm, _, _, _⟩ := gather_ok_char h
  refine ⟨?_, hfm.2, fun av hav => (hmm.2 av hav).1.2⟩
  rw [hnum, List.Nodup.dedup hfm.1, List.length_map]

/-- Witness for C7 on the single-threaded `sampleChat` run. -/
theorem num_tokens_and_positive_counts_witness :
    sampleStats.num_tokens = (sampleStats.tokens_map.map Prod.fst).dedup.length ∧
    (∀ kv ∈ sampleStats.tokens_map, 1 ≤ kv.2) ∧
    (∀ av ∈ sampleStats.members_tokens_map, ∀ kv ∈ av.2, 1 ≤ kv.2) :=
  num_tokens_and_positive_counts sampleChat 1 sampleStats (by decide)

/-! ## Claim C10: authors appear iff they contributed a token -/

/-- **C10**: every author key of the by-author map holds a non-empty
frequency map, and an author none of whose messages yields any token
never appears as a key. -/
theorem members_map_nonempty_and_supported (chat : Chat) (jobs : Nat)
    (stats : ChatStatistics) (h : gather chat jobs = Except.ok stats) :
    (∀ av ∈ stats.members_tokens_map, av.2 ≠ []) ∧
    (∀ a, (∀ m ∈ chat.messages, m.«from» = some a → msgTokens m = []) →
      lookupA a stats.members_tokens_map = none) := by
  obtain ⟨_, _, _, _, hmm, _, _, h6⟩ := gather_ok_char h
  refine ⟨fun av hav => (hmm.2 av hav).2, ?_⟩
  intro a ha
  by_contra hk
  have hne := (h6 a).1 hk
  apply hne
  unfold totBy
  rw [List.length_flatten]
  apply List.sum_eq_zero
  intro x hx
  obtain ⟨l, hl, hlx⟩ := List.mem_map.1 hx
  obtain ⟨m, hm, hml⟩ := List.mem_map.1 hl
  subst hlx
  subst hml
  have hmem : m ∈ chat.messages := List.take_subset _ _ hm
  unfold msgTokensBy
  by_cases hf : m.«from» = some a
  · rw [if_pos hf, ha m hmem hf]
    rfl
  · rw [if_neg hf]
    rfl

/-- Witness for C10 on the single-threaded `sampleChat` run. -/
theorem members_map_nonempty_and_supported_witness :
    (∀ av ∈ sampleStats.members_tokens_map, av.2 ≠ []) ∧
    (∀ a, (∀ m ∈ sampleChat.messages, m.«from» = some a → msgTokens m = []) →
      lookupA a sampleStats.members_tokens_map = none) :=
  members_map_nonempty_and_supported sampleChat 1 sampleStats (by decide)

/-! ## Claim C2: the cross-check invariant -/

/-- **C2**: in every `ChatStatistics` that `gather` returns, the global
count of a token equals the sum, over the authors of the by-author map,
of that token's count in the author's sub-map (an absent key counting
as `0`). -/
theorem global_eq_sum_by_author (chat : Chat) (jobs : Nat)
    (stats : ChatStatistics) (h : gather chat jobs = Except.ok stats) (t : Str) :
    (lookupA t stats.tokens_map).getD 0 =
      (stats.members_tokens_map.map (fun av => (lookupA t av.2).getD 0)).sum := by
  obtain ⟨_, hp, _, _, hmm, h4, h5, h6⟩ := gather_ok_char h
  have hentry : ∀ av ∈ stats.members_tokens_map,
      (fun av : Str × FreqMap => (lookupA t av.2).getD 0) av =
        (fun av : Str × FreqMap => countBy av.1 t (processedPrefix chat jobs)) av := by
    intro av hav
    have hlk : lookupA av.1 stats.members_tokens_map = some av.2 :=
      lookupA_eq_of_mem hmm.1 hav
    have hsub : subMap av.1 stats.members_tokens_map = av.2 := by
      unfold subMap
      rw [hlk]
      rfl
    show (lookupA t av.2).getD 0 = _
    rw [← hsub, h5 av.1 t, getD_posOpt]
  rw [h4 t, getD_posOpt, List.map_congr_left hentry]
  have hmapmap : stats.members_tokens_map.map
        (fun av => countBy av.1 t (processedPrefix chat jobs)) =
      (stats.members_tokens_map.map Prod.fst).map
        (fun a => countBy a t (processedPrefix chat jobs)) := by
    rw [List.map_map]
    rfl
  rw [hmapmap]
  apply countTok_eq_sum_countBy t _ _ hmm.1
  intro m hm hcnt
  have hsvc : m.type ≠ MessageType.service := by
    intro hc
    apply hcnt
    unfold msgTokens
    rw [if_pos hc]
    rfl
  have hsome := hp m hm hsvc
  rcases hfrom : m.«from» with _ | a
  · rw [hfrom] at hsome
    simp at hsome
  · refine ⟨a, rfl, ?_⟩
    have htot : totBy a (processedPrefix chat jobs) ≠ 0 := by
      apply totBy_pos_of_mem hm hfrom
      intro hc
      apply hcnt
      rw [hc]
      rfl
    have hpres := (h6 a).2 htot
    exact (lookupA_ne_none_iff a _).1 hpres

/-- Witness for C2 on the single-threaded `sampleChat` run at the
token "world". -/
theorem global_eq_sum_by_author_witness :
    (lookupA "world".data sampleStats.tokens_map).getD 0 =
      (sampleStats.members_tokens_map.map
        (fun av => (lookupA "world".data av.2).getD 0)).sum :=
  global_eq_sum_by_author sampleChat 1 sampleStats (by decide) "world".data

/-! ## Claim C1: determinism under partitioning -/

/-- **C1**: for every transcript and every worker count `j` in
`[1, message_count]` dividing `message_count`, `gather chat j` produces
the same result as the single-threaded run (the same panic, or
statistics equal as `HashMap`s); the merge of chunk results — both the
chunk-global maps and the per-author maps — is commutative and
associative, and consequently folding the per-chunk results in any
arrival order produces the same accumulator maps. -/
theorem gather_worker_count_invariant (chat : Chat) (j : Nat)
    (h1 : 1 ≤ j) (h2 : j ≤ chat.messages.length) (h3 : j ∣ chat.messages.length) :
    resultEquiv (gather chat j) (gather chat 1) ∧
    (∀ m1 m2 : FreqMap, fmNodup m1 → fmNodup m2 →
      fmEquiv (mergeTokens m1 m2) (mergeTokens m2 m1)) ∧
    (∀ m1 m2 m3 : FreqMap, fmNodup m2 → fmNodup m3 →
      fmEquiv (mergeTokens (mergeTokens m1 m2) m3)
        (mergeTokens m1 (mergeTokens m2 m3))) ∧
    (∀ n1 n2 : MembersMap, mmNodup n1 → mmNodup n2 →
      mmEquiv (mergeMembers n1 n2) (mergeMembers n2 n1)) ∧
    (∀ n1 n2 n3 : MembersMap, mmNodup n2 → mmNodup n3 →
      mmEquiv (mergeMembers (mergeMembers n1 n2) n3)
        (mergeMembers n1 (mergeMembers n2 n3))) ∧
    (∀ rs rs' : List (FreqMap × MembersMap), rs.Perm rs' →
      (∀ r ∈ rs, pairNodup r) →
      fmEquiv (rs.foldl mergeStep ([], [])).1 (rs'.foldl mergeStep ([], [])).1 ∧
      mmEquiv (rs.foldl mergeStep ([], [])).2 (rs'.foldl mergeStep ([], [])).2) := by
  refine ⟨?_, fun m1 m2 hn1 hn2 => mergeTokens_comm hn1 hn2,
    fun m1 m2 m3 hn2 hn3 => mergeTokens_assoc hn2 hn3,
    fun n1 n2 hn1 hn2 => mergeMembers_comm hn1 hn2,
    fun n1 n2 n3 hn2 hn3 => mergeMembers_assoc hn2 hn3,
    fun rs rs' hperm hwf => foldl_mergeStep_perm hperm hwf⟩
  have hj0 : j ≠ 0 := by omega
  have hpre_j : processedPrefix chat j = chat.messages := by
    unfold processedPrefix
    rw [Nat.mul_div_cancel' h3, List.take_length]
  have hpre_1 : processedPrefix chat 1 = chat.messages := by
    unfold processedPrefix
    rw [Nat.div_one, Nat.one_mul, List.take_length]
  by_cases hp : processable chat.messages
  · obtain ⟨sj, heqj, hnj, hfmj, hmmj, h4j, h5j, h6j⟩ :=
      gather_char chat j hj0 (by rw [hpre_j]; exact hp)
    obtain ⟨s1, heq1, hn1, hfm1, hmm1, h41, h51, h61⟩ :=
      gather_char chat 1 (by omega) (by rw [hpre_1]; exact hp)
    rw [heqj, heq1]
    show statsEquiv sj s1
    rw [hpre_j] at h4j h5j h6j
    rw [hpre_1] at h41 h51 h61
    have hfme : fmEquiv sj.tokens_map s1.tokens_map := by
      intro t
      rw [h4j t, h41 t]
    refine ⟨?_, hfme, ?_, ?_⟩
    · rw [hnj, hn1]
      exact length_eq_of_fmEquiv hfme hfmj.1 hfm1.1
    · intro b
      rw [h6j b, h61 b]
    · intro b t
      rw [h5j b t, h51 b t]
  · rw [gather_err chat j hj0 (by rw [hpre_j]; exact hp),
      gather_err chat 1 (by omega) (by rw [hpre_1]; exact hp)]
    exact rfl

/-- Witness for C1: a three-worker run on the three-message
`sampleChat` is equivalent to the single-threaded run. -/
theorem gather_worker_count_invariant_witness :
    resultEquiv (gather sampleChat 3) (gather sampleChat 1) :=
  (gather_worker_count_invariant sampleChat 3 (by decide) (by decide)
    (by decide)).1

/-! ## Claim C3: segment kinds are ignored -/

/-- Re-type one message's segments, keeping every text unchanged. -/
def retypeMessage (f : TextEntityType → TextEntityType) (m : Message) : Message :=
  ⟨m.id, m.type, m.«from», m.text_entities.map (fun e => ⟨f e.type, e.text⟩)⟩

/-- Re-type every segment of a transcript, keeping every text
unchanged. -/
def retypeEntities (f : TextEntityType → TextEntityType) (chat : Chat) : Chat :=
  ⟨chat.name, chat.type, chat.id, chat.messages.map (retypeMessage f)⟩

theorem processEntities_retype (f : TextEntityType → TextEntityType) (a : Str)
    (ents : List TextEntity) (st : FreqMap × MembersMap) :
    processEntities a (ents.map (fun e => ⟨f e.type, e.text⟩)) st =
      processEntities a ents st := by
  unfold processEntities
  rw [List.foldl_map]
  rfl

theorem processMessage_retype (f : TextEntityType → TextEntityType)
    (st : FreqMap × MembersMap) (m : Message) :
    processMessage st (retypeMessage f m) = processMessage st m := by
  rcases m with ⟨mid, mty, mfrom, ents⟩
  show processMessage st ⟨mid, mty, mfrom, ents.map _⟩ = _
  unfold processMessage
  by_cases hsvc : mty = MessageType.service
  · rw [if_pos hsvc, if_pos hsvc]
  · rw [if_neg hsvc, if_neg hsvc]
    rcases mfrom with _ | a
    · rfl
    · show Except.ok (processEntities a (ents.map _) st) = _
      rw [processEntities_retype]

theorem foldlM_retype (f : TextEntityType → TextEntityType) (msgs : List Message) :
    ∀ st : FreqMap × MembersMap,
      List.foldlM processMessage st (msgs.map (retypeMessage f)) =
        List.foldlM processMessage st msgs := by
  induction msgs with
  | nil => intro st; rfl
  | cons m rest ih =>
      intro st
      rw [List.map_cons, List.foldlM_cons, List.foldlM_cons, processMessage_retype]
      rcases hres : processMessage st m with e | st'
      · rw [errBind, errBind]
      · rw [okBind, okBind]
        exact ih st'

theorem processChunk_retype (f : TextEntityType → TextEntityType)
    (ch : List Message) :
    processChunk (ch.map (retypeMessage f)) = processChunk ch :=
  foldlM_retype f ch ([], [])

theorem gatherChunks_retype (f : TextEntityType → TextEntityType)
    (msgs : List Message) (jobs : Nat) :
    gatherChunks (msgs.map (retypeMessage f)) jobs =
      (gatherChunks msgs jobs).map (List.map (retypeMessage f)) := by
  unfold gatherChunks workerChunk
  rw [List.length_map, List.map_map]
  apply List.map_congr_left
  intro i _
  show ((msgs.map (retypeMessage f)).drop _).take _ = _
  rw [← List.map_drop, ← List.map_take]
  rfl

theorem mapM_processChunk_retype (f : TextEntityType → TextEntityType)
    (chs : List (List Message)) :
    (chs.map (List.map (retypeMessage f))).mapM processChunk =
      chs.mapM processChunk := by
  induction chs with
  | nil => rfl
  | cons ch rest ih =>
      rw [List.map_cons, List.mapM_cons, List.mapM_cons, processChunk_retype]
      rcases hres : processChunk ch with e | r
      · rw [errBind, errBind]
      · rw [okBind, okBind, ih]

/-- **C3 counterexample**: a regular message whose only segment has
kind `Phone` does contribute tokens: the phone number itself is counted
in both maps, so the claimed meta-kind exclusion does not exist. -/
theorem phone_segment_contributes_tokens :
    gather phoneChat 1 =
      Except.ok ⟨1, [(['A'], [("123".data, 1)])], [("123".data, 1)]⟩ := by decide

/-- **C3 amended**: the pipeline never inspects a segment's kind:
re-typing every segment arbitrarily (in particular to or from `Phone`,
`BotCommand`, `Email`, `CustomEmoji` or `Mention`) leaves the result of
`gather` unchanged, because every segment of a counted message
contributes its text's tokens whatever its kind. -/
theorem entity_kind_ignored (f : TextEntityType → TextEntityType)
    (chat : Chat) (jobs : Nat) :
    gather (retypeEntities f chat) jobs = gather chat jobs := by
  unfold gather
  by_cases hj : jobs = 0
  · rw [if_pos hj, if_pos hj]
  · rw [if_neg hj, if_neg hj]
    have hmsgs : (retypeEntities f chat).messages = chat.messages.map (retypeMessage f) :=
      rfl
    rw [hmsgs, gatherChunks_retype, mapM_processChunk_retype]

/-! ## Claim C4: the separator set -/

theorem splitCharsNE_cons (p : Char → Bool) (c : Char) (rest : Str) :
    splitCharsNE p (c :: rest) =
      if p c then ([], (splitCharsNE p rest).1 :: (splitCharsNE p rest).2)
      else (c :: (splitCharsNE p rest).1, (splitCharsNE p rest).2) := rfl

theorem splitCharsNE_no_sep (p : Char → Bool) (s : Str) :
    (∀ c ∈ (splitCharsNE p s).1, p c = false) ∧
    (∀ frag ∈ (splitCharsNE p s).2, ∀ c ∈ frag, p c = false) := by
  induction s with
  | nil =>
      constructor
      · intro c hc
        cases hc
      · intro frag hf
        cases hf
  | cons c0 rest ih =>
      rw [splitCharsNE_cons]
      by_cases hpc : p c0
      · rw [if_pos hpc]
        constructor
        · intro c hc
          cases hc
        · intro frag hf
          rcases List.mem_cons.1 hf with h | h
          · subst h
            exact ih.1
          · exact ih.2 frag h
      · rw [if_neg hpc]
        constructor
        · intro c hc
          rcases List.mem_cons.1 hc with h | h
          · subst h
            simpa using hpc
          · exact ih.1 c h
        · exact ih.2

/-- **C4 counterexample**: hyphen, `!` and `?` — claimed members of the
separator set — do not split: each survives inside a single token. -/
theorem hyphen_bang_question_not_separators :
    tokenize "a-b".data = ["a-b".data] ∧
    tokenize "a!b".data = ["a!b".data] ∧
    tokenize "a?b".data = ["a?b".data] := by decide

/-- **C4 amended**: the tokenizer splits on exactly the nine characters
`{space, comma, period, '(', ')', apostrophe, double-quote, newline,
tab}` — hyphen, `!` and `?` are NOT separators — and empty fragments
are discarded: every produced fragment is non-empty and free of
separator characters, and a character placed between two letters splits
the text precisely when it belongs to that nine-character set. -/
theorem tokenize_separator_characterization :
    (∀ s : Str, ∀ frag ∈ tokenize s, frag ≠ [] ∧ ∀ c ∈ frag, c ∉ separators) ∧
    (∀ c : Char, tokenize ['a', c, 'b'] =
      if c ∈ separators then [['a'], ['b']] else [['a', c, 'b']]) := by
  constructor
  · intro s frag hf
    have hmem := List.mem_filter.1 hf
    have hsp := splitCharsNE_no_sep (fun c => c ∈ separators) s
    refine ⟨by simpa using hmem.2, ?_⟩
    intro c hc
    have hfr : ∀ fr ∈ splitChars (fun c => (c ∈ separators : Bool)) s,
        ∀ c ∈ fr, ((c ∈ separators : Bool)) = false := by
      intro fr hfr
      rcases List.mem_cons.1 hfr with h | h
      · subst h
        exact hsp.1
      · exact hsp.2 fr h
    have := hfr frag hmem.1 c hc
    simpa using this
  · intro c
    by_cases hc : c ∈ separators
    · rw [if_pos hc]
      have hb : splitCharsNE (fun c => (c ∈ separators : Bool)) ['b'] =
          (['b'], []) := rfl
      have h2 : splitCharsNE (fun c => (c ∈ separators : Bool)) (c :: ['b']) =
          ([], [['b']]) := by
        rw [splitCharsNE_cons, hb, if_pos (by simpa using hc)]
      have h3 : splitCharsNE (fun c => (c ∈ separators : Bool)) ('a' :: c :: ['b']) =
          (['a'], [['b']]) := by
        rw [splitCharsNE_cons, h2, if_neg (by decide)]
      unfold tokenize splitChars
      rw [h3]
      rfl
    · rw [if_neg hc]
      have hb : splitCharsNE (fun c => (c ∈ separators : Bool)) ['b'] =
          (['b'], []) := rfl
      have h2 : splitCharsNE (fun c => (c ∈ separators : Bool)) (c :: ['b']) =
          (c :: ['b'], []) := by
        rw [splitCharsNE_cons, hb, if_neg (by simpa using hc)]
      have h3 : splitCharsNE (fun c => (c ∈ separators : Bool)) ('a' :: c :: ['b']) =
          ('a' :: c :: ['b'], []) := by
        rw [splitCharsNE_cons, h2, if_neg (by decide)]
      unfold tokenize splitChars
      rw [h3]
      rfl

/-! ## Claim C5: fragments normalizing to empty are still counted -/

theorem count_map_eq_length_filter (f : Str → Str) (l : List Str) (t : Str) :
    (l.map f).count t = (l.filter (fun x => f x = t)).length := by
  induction l with
  | nil => rfl
  | cons x rest ih =>
      by_cases hx : f x = t
      · simp [List.count_cons, List.filter_cons, hx, ih]
      · simp [List.count_cons, List.filter_cons, hx, ih]

/-- **C5 counterexample**: a segment consisting of a single emoji does
not yield zero tokens: the fragment normalizes to the empty string,
which is counted — the run reports one distinct token, the empty one. -/
theorem emoji_only_fragment_counted :
    gather emojiChat 1 = Except.ok ⟨1, [(['A'], [([], 1)])], [([], 1)]⟩ := by decide

/-- **C5 amended**: a fragment whose normalization is empty is NOT
discarded: every non-empty fragment of the splitter is counted as its
normalized form, so the empty token's count equals the number of
fragments (e.g. separator-delimited emoji sequences) that normalize to
the empty string. -/
theorem normalized_empty_fragment_still_counted (a : Str)
    (ty : TextEntityType) (s : Str) :
    ∃ stats, gather (mkSingleChat a ty s) 1 = Except.ok stats ∧
      (∀ t, lookupA t stats.tokens_map =
        posOpt (((tokenize s).map remove_emojis).count t)) ∧
      lookupA [] stats.tokens_map =
        posOpt (((tokenize s).filter (fun f => remove_emojis f = [])).length) := by
  have hp : processable (processedPrefix (mkSingleChat a ty s) 1) := by
    intro m hm hsvc
    have : m ∈ (mkSingleChat a ty s).messages := List.take_subset _ _ hm
    rcases List.mem_cons.1 this with h | h
    · subst h
      rfl
    · cases h
  obtain ⟨stats, heq, _, _, _, h4, _, _⟩ := gather_char _ 1 (by omega) hp
  have hpre : processedPrefix (mkSingleChat a ty s) 1 =
      (mkSingleChat a ty s).messages := by
    unfold processedPrefix
    have h1 : (mkSingleChat a ty s).messages.length = 1 := rfl
    rw [h1, Nat.div_self (by omega), Nat.mul_one]
    rfl
  have htm : ∀ t, lookupA t stats.tokens_map =
      posOpt (((tokenize s).map remove_emojis).count t) := by
    intro t
    rw [h4 t, hpre]
    congr 1
    show countTok t [⟨1, MessageType.message, some a, [⟨ty, s⟩]⟩] = _
    unfold countTok msgTokens
    simp [entityTokens]
  refine ⟨stats, heq, htm, ?_⟩
  rw [htm [], count_map_eq_length_filter]
